import Mathlib

/-!
# Asset record manager (`src/smartcontract.go`)

A shallow embedding of the chaincode in `src/smartcontract.go`:

* the `Asset` record and its JSON codec (`json.Marshal` / `json.Unmarshal` of Go's
  `encoding/json`, as they act on the `Asset` struct);
* the ledger stub the contract talks to (`GetState`, `PutState`, `GetStateByRange`,
  `GetHistoryForKey` and the iterators they hand out);
* the six contract operations `InitLedger`, `CreateAsset`, `UpdateAsset`, `ReadAsset`,
  `GetAllAssets`, `GetAssetHistory`.

Conventions of the embedding.

* A Go `int` is an `Int` together with the range predicate `IsGoInt` (64 bit); the contract
  performs no arithmetic, so no wrap-around is modelled.
* A Go `string` is the list of its bytes (`GoString`), well-formed UTF-8 or not; a byte is
  a natural number below 256 (a larger number is read as a byte that starts no
  encoding). `goStr` gives the bytes of a string literal.
* A byte payload is the list of Unicode scalar values it spells (`Payload`), i.e. its
  UTF-8 decoding: what `json.Marshal` writes is always well-formed UTF-8. Payloads that
  are not well-formed UTF-8 are outside the embedding.
* The struct declares its seventh field as `Transtype`, every use site writes `TRANSTYPE`;
  the embedding has the single field `TRANSTYPE` carrying the JSON tag `TRANS`.
* `PutState` takes effect on the world state at once. No operation reads a key after
  writing it, so the results agree with a ledger that applies the writes of a
  transaction when it commits.
* The calls of the stub can fail; which calls fail is part of the ledger (`getFault`,
  `putFault`, `rangeFault`, `historyFault`, `nextFault`).
* A cursor is the list of the outcomes of its calls of `Next`; the stub logs when a cursor
  is handed out, advanced and closed. A deferred `Close` is written after the body of
  the operation and runs whatever the body returns.

The codec follows `encoding/json`:

* `json.Marshal` writes one object, the struct fields in declaration order under their
  `json` tags, integers in decimal, strings quoted with `"` and `\` escaped, the control
  characters as `\b`, `\f`, `\n`, `\r`, `\t` or `\u00XX`, `<`, `>`, `&` as `\u00XX`
  (HTML escaping is on), U+2028 and U+2029 as `\u2028`, `\u2029`, and every byte that
  starts no well-formed UTF-8 encoding (`utf8.DecodeRuneInString` gives `RuneError` of
  width 1) as `\ufffd`;
* `json.Unmarshal` first checks that the text is one JSON value (full grammar, nesting at
  most 10000 deep), then stores an object member by member: the key selects the field
  whose tag it equals, else the field whose tag it equals up to case folding, else the
  member is skipped; `null` stores nothing; an `int` field takes a number literal that
  `strconv.ParseInt` reads as a 64 bit integer, a `string` field a string; any other
  value is a type error. The contract drops the asset on every error, so the embedding
  returns the error alone.
-/

namespace Chaincode

/-! ## Data model -/

/-- The payload stored under a key: JSON text as a list of Unicode scalar values. -/
abbrev Payload := List Char

/-- A Go `string`: any sequence of bytes. -/
abbrev GoString := List Nat

/-- The `Asset` struct, fields in declaration order. -/
structure Asset where
  DEALERID : Int
  MSISDN : GoString
  MPIN : GoString
  BALANCE : Int
  STATUS : GoString
  TRANSAMOUNT : Int
  TRANSTYPE : GoString
  REMARKS : GoString
deriving DecidableEq, Repr

/-- The zero value of `Asset` (`var asset Asset`). -/
def Asset.zero : Asset := ⟨0, [], [], 0, [], 0, [], []⟩

/-- Smallest value of a Go `int` (64 bit). -/
def minInt : Int := -9223372036854775808

/-- Largest value of a Go `int` (64 bit). -/
def maxInt : Int := 9223372036854775807

/-- The integer is a value of Go's `int`. -/
def IsGoInt (n : Int) : Prop := minInt ≤ n ∧ n ≤ maxInt

instance (n : Int) : Decidable (IsGoInt n) := by unfold IsGoInt; exact inferInstance

/-! ## UTF-8 (`unicode/utf8`) -/

/-- The UTF-8 encoding of a character (`utf8.EncodeRune`). -/
def utf8Char (c : Char) : List Nat :=
  if c.toNat < 0x80 then [c.toNat]
  else if c.toNat < 0x800 then [0xC0 + c.toNat / 64, 0x80 + c.toNat % 64]
  else if c.toNat < 0x10000 then
    [0xE0 + c.toNat / 4096, 0x80 + c.toNat / 64 % 64, 0x80 + c.toNat % 64]
  else
    [0xF0 + c.toNat / 262144, 0x80 + c.toNat / 4096 % 64, 0x80 + c.toNat / 64 % 64,
      0x80 + c.toNat % 64]

/-- The UTF-8 encoding of a sequence of characters. -/
def utf8 : List Char → GoString
  | [] => []
  | c :: cs => utf8Char c ++ utf8 cs

/-- The Go string a string literal of the source denotes. -/
def goStr (s : String) : GoString := utf8 s.data

/-- The table `first` of `unicode/utf8` for a leading byte of a multi-byte encoding: the
length of the encoding and the range the second byte must lie in; `none` for a byte that
starts no multi-byte encoding. -/
def leadInfo (b : Nat) : Option (Nat × Nat × Nat) :=
  if 0xC2 ≤ b ∧ b ≤ 0xDF then some (2, 0x80, 0xBF)
  else if b = 0xE0 then some (3, 0xA0, 0xBF)
  else if b = 0xED then some (3, 0x80, 0x9F)
  else if 0xE1 ≤ b ∧ b ≤ 0xEF then some (3, 0x80, 0xBF)
  else if b = 0xF0 then some (4, 0x90, 0xBF)
  else if 0xF1 ≤ b ∧ b ≤ 0xF3 then some (4, 0x80, 0xBF)
  else if b = 0xF4 then some (4, 0x80, 0x8F)
  else none

/-- A continuation byte. -/
def isCont (b : Nat) : Bool := 0x80 ≤ b ∧ b ≤ 0xBF

/-- The bytes after the leading byte `b0` of an encoding of `sz` bytes whose second byte
must lie between `lo` and `hi`: the character and the bytes that follow the encoding, or
`none` when the encoding is cut short or a byte is out of range. -/
def decodeMulti (b0 sz lo hi : Nat) : List Nat → Option (Char × List Nat)
  | [] => none
  | b1 :: r1 =>
    if b1 < lo ∨ hi < b1 then none
    else if sz ≤ 2 then some (Char.ofNat (b0 % 32 * 64 + b1 % 64), r1)
    else
      match r1 with
      | [] => none
      | b2 :: r2 =>
        if isCont b2 = false then none
        else if sz ≤ 3 then some (Char.ofNat (b0 % 16 * 4096 + b1 % 64 * 64 + b2 % 64), r2)
        else
          match r2 with
          | [] => none
          | b3 :: r3 =>
            if isCont b3 = false then none
            else
              some (Char.ofNat (b0 % 8 * 262144 + b1 % 64 * 4096 + b2 % 64 * 64 + b3 % 64), r3)

/-- Go's `utf8.DecodeRuneInString` on the string that starts with the byte `b0`: the
character at the head and the bytes after its encoding, or `none` for `RuneError` of
width 1 (the byte starts no well-formed encoding). -/
def decodeRune (b0 : Nat) (rest : List Nat) : Option (Char × List Nat) :=
  if b0 < 0x80 then some (Char.ofNat b0, rest)
  else
    match leadInfo b0 with
    | none => none
    | some (sz, lo, hi) => decodeMulti b0 sz lo hi rest

/-- The string read rune by rune in at most `fuel` steps: `some c` for a well-formed
encoding of `c`, `none` for a byte that starts no well-formed encoding (the walk goes on
one byte further). -/
def runesFuel : Nat → List Nat → List (Option Char)
  | 0, _ => []
  | _ + 1, [] => []
  | fuel + 1, b :: rest =>
    match decodeRune b rest with
    | some (c, r) => some c :: runesFuel fuel r
    | none => none :: runesFuel fuel rest

/-- The string read rune by rune, as `json.Marshal` walks it. Every step consumes a byte,
so the length of the string is fuel enough. -/
def runes (s : GoString) : List (Option Char) := runesFuel s.length s

/-- Go's `utf8.ValidString`: the string is well-formed UTF-8. -/
def validUTF8 (s : GoString) : Bool := (runes s).all Option.isSome

/-- Every integer field of the asset is a value of Go's `int`. -/
def Asset.IntsValid (a : Asset) : Prop :=
  IsGoInt a.DEALERID ∧ IsGoInt a.BALANCE ∧ IsGoInt a.TRANSAMOUNT

instance (a : Asset) : Decidable a.IntsValid := by unfold Asset.IntsValid; exact inferInstance

/-- Every string field of the asset is well-formed UTF-8. -/
def Asset.StringsValid (a : Asset) : Prop :=
  validUTF8 a.MSISDN = true ∧ validUTF8 a.MPIN = true ∧ validUTF8 a.STATUS = true ∧
    validUTF8 a.TRANSTYPE = true ∧ validUTF8 a.REMARKS = true

instance (a : Asset) : Decidable a.StringsValid := by
  unfold Asset.StringsValid; exact inferInstance

/-- A valid asset: every integer field is a value of Go's `int` and every string field is
well-formed UTF-8. -/
def Asset.Valid (a : Asset) : Prop := a.IntsValid ∧ a.StringsValid

instance (a : Asset) : Decidable a.Valid := by unfold Asset.Valid; exact inferInstance

/-! ## Decimal formatting (`strconv.Itoa`, `strconv.AppendInt`) -/

/-- The decimal digit `d` as a character. -/
def digitChar (d : Nat) : Char := Char.ofNat (48 + d)

/-- Digits of `n`, most significant first, pushed in front of `acc`; `fuel` bounds the
number of digits produced. -/
def natDigits : Nat → Nat → List Char → List Char
  | 0, _, acc => acc
  | fuel + 1, n, acc =>
    if n / 10 = 0 then digitChar (n % 10) :: acc
    else natDigits fuel (n / 10) (digitChar (n % 10) :: acc)

/-- Decimal form of a natural number, no padding. -/
def formatNat (n : Nat) : List Char := natDigits (n + 1) n []

/-- Decimal form of an integer: `strconv.FormatInt(n, 10)`. -/
def formatInt (n : Int) : List Char :=
  if n < 0 then '-' :: formatNat n.natAbs else formatNat n.natAbs

/-- Go's `strconv.Itoa`. -/
def Itoa (n : Int) : String := String.mk (formatInt n)

/-! ## JSON encoding (`json.Marshal` on an `Asset`) -/

/-- Lower-case hexadecimal digit, `hex[n]` of `encoding/json`. -/
def hexDigit (n : Nat) : Char :=
  if n < 10 then Char.ofNat (48 + n) else Char.ofNat (87 + n)

/-- How `json.Marshal` (HTML escaping on) writes one character of a string. -/
def escapeChar (c : Char) : List Char :=
  if c = '\\' ∨ c = '"' then ['\\', c]
  else if c = '\x08' then ['\\', 'b']
  else if c = '\x0c' then ['\\', 'f']
  else if c = '\n' then ['\\', 'n']
  else if c = '\r' then ['\\', 'r']
  else if c = '\t' then ['\\', 't']
  else if c.toNat < 32 ∨ c = '<' ∨ c = '>' ∨ c = '&' then
    ['\\', 'u', '0', '0', hexDigit (c.toNat / 16), hexDigit (c.toNat % 16)]
  else if c = '\u2028' ∨ c = '\u2029' then
    ['\\', 'u', '2', '0', '2', hexDigit (c.toNat % 16)]
  else [c]

/-- How `json.Marshal` writes one step of its walk over a string: a character escaped as
`escapeChar` says, a byte that starts no well-formed encoding as `\ufffd`. -/
def escapeRune : Option Char → List Char
  | some c => escapeChar c
  | none => ['\\', 'u', 'f', 'f', 'f', 'd']

/-- The steps of a walk over a string, each escaped. -/
def escapeRunes : List (Option Char) → List Char
  | [] => []
  | u :: us => escapeRune u ++ escapeRunes us

/-- A string as a JSON string literal (`appendString`). -/
def quoteString (s : GoString) : List Char :=
  '"' :: (escapeRunes (runes s) ++ ['"'])

/-- A JSON object key followed by its colon. -/
def keyColon (tag : String) : List Char :=
  '"' :: (tag.data ++ ['"', ':'])

/-- The fields `json.Marshal` writes for an asset, in the order of the struct declaration
(`encoding/json` walks the struct fields by index and never sorts them): each `json` tag
with the encoded value. -/
def encodeFields (a : Asset) : List (String × List Char) :=
  [("DEALERID", formatInt a.DEALERID),
   ("MSISDN", quoteString a.MSISDN),
   ("ID", quoteString a.MPIN),
   ("BALANCE", formatInt a.BALANCE),
   ("Status", quoteString a.STATUS),
   ("TRANSAM", formatInt a.TRANSAMOUNT),
   ("TRANS", quoteString a.TRANSTYPE),
   ("REMARKS", quoteString a.REMARKS)]

/-- The members of an object, separated by commas. -/
def joinMembers : List (String × List Char) → List Char
  | [] => []
  | [(tag, v)] => keyColon tag ++ v
  | (tag, v) :: m :: rest => keyColon tag ++ v ++ (',' :: joinMembers (m :: rest))

/-- The JSON text `json.Marshal` produces for an asset: one object holding the fields of
`encodeFields`. -/
def encode (a : Asset) : Payload :=
  '\x7b' :: (joinMembers (encodeFields a) ++ ['\x7d'])

/-! ## JSON decoding (`json.Unmarshal` into an `Asset`) -/

/-- A parsed JSON value; a number keeps its literal. -/
inductive JValue where
  | null : JValue
  | bool : Bool → JValue
  | num : List Char → JValue
  | str : String → JValue
  | arr : List JValue → JValue
  | obj : List (String × JValue) → JValue

/-- JSON white space. -/
def isSpace (c : Char) : Bool := c = ' ' ∨ c = '\t' ∨ c = '\r' ∨ c = '\n'

/-- Drop leading white space. -/
def skipWS : List Char → List Char
  | [] => []
  | c :: cs => if isSpace c then skipWS cs else c :: cs

/-- A decimal digit. -/
def isDigit (c : Char) : Bool := 48 ≤ c.toNat ∧ c.toNat ≤ 57

/-- Split off the leading run of decimal digits. -/
def spanDigits : List Char → List Char × List Char
  | [] => ([], [])
  | c :: cs =>
    if isDigit c then ((spanDigits cs).1.cons c, (spanDigits cs).2) else ([], c :: cs)

/-- Integer part of a number literal: `0`, or a non-zero digit followed by digits. -/
def scanIntPart : List Char → Option (List Char × List Char)
  | [] => none
  | c :: cs =>
    if c = '0' then some (['0'], cs)
    else if isDigit c then some (c :: (spanDigits cs).1, (spanDigits cs).2)
    else none

/-- Optional fraction of a number literal: a dot and at least one digit. -/
def scanFrac : List Char → Option (List Char × List Char)
  | [] => some ([], [])
  | c :: cs =>
    if c = '.' then
      if (spanDigits cs).1 = [] then none
      else some ('.' :: (spanDigits cs).1, (spanDigits cs).2)
    else some ([], c :: cs)

/-- Digits of an exponent, at least one. -/
def scanExpDigits (front : List Char) (cs : List Char) : Option (List Char × List Char) :=
  if (spanDigits cs).1 = [] then none else some (front ++ (spanDigits cs).1, (spanDigits cs).2)

/-- Optional exponent of a number literal: `e` or `E`, an optional sign, digits. -/
def scanExp : List Char → Option (List Char × List Char)
  | [] => some ([], [])
  | c :: cs =>
    if c = 'e' ∨ c = 'E' then
      match cs with
      | [] => none
      | s :: cs1 =>
        if s = '+' ∨ s = '-' then scanExpDigits [c, s] cs1 else scanExpDigits [c] (s :: cs1)
    else some ([], c :: cs)

/-- A number literal after its optional minus sign. -/
def scanUnsigned (cs : List Char) : Option (List Char × List Char) :=
  match scanIntPart cs with
  | none => none
  | some (ip, r1) =>
    match scanFrac r1 with
    | none => none
    | some (fp, r2) =>
      match scanExp r2 with
      | none => none
      | some (ep, r3) => some (ip ++ fp ++ ep, r3)

/-- A JSON number literal at the head of the input: the literal and what follows it. -/
def scanNumber : List Char → Option (List Char × List Char)
  | [] => none
  | c :: cs =>
    if c = '-' then
      match scanUnsigned cs with
      | none => none
      | some (lit, r) => some ('-' :: lit, r)
    else scanUnsigned (c :: cs)

/-- Value of a hexadecimal digit. -/
def hexVal (c : Char) : Option Nat :=
  if 48 ≤ c.toNat ∧ c.toNat ≤ 57 then some (c.toNat - 48)
  else if 97 ≤ c.toNat ∧ c.toNat ≤ 102 then some (c.toNat - 87)
  else if 65 ≤ c.toNat ∧ c.toNat ≤ 70 then some (c.toNat - 55)
  else none

/-- The code unit spelled by four hexadecimal digits (`getu4`). -/
def getu4 (a b c d : Char) : Option Nat :=
  match hexVal a, hexVal b, hexVal c, hexVal d with
  | some x, some y, some z, some w => some (((x * 16 + y) * 16 + z) * 16 + w)
  | _, _, _, _ => none

/-- The character a one-letter escape stands for. -/
def unescape (e : Char) : Option Char :=
  if e = '"' then some '"'
  else if e = '\\' then some '\\'
  else if e = '/' then some '/'
  else if e = 'b' then some '\x08'
  else if e = 'f' then some '\x0c'
  else if e = 'n' then some '\n'
  else if e = 'r' then some '\r'
  else if e = 't' then some '\t'
  else none

/-- A UTF-16 surrogate code unit. -/
def isSurrogate (n : Nat) : Bool := 0xD800 ≤ n ∧ n < 0xE000

/-- The replacement character U+FFFD. -/
def replacementChar : Char := Char.ofNat 0xFFFD

/-- Combine a surrogate pair (`utf16.DecodeRune`); U+FFFD when it is not a valid pair. -/
def decodeSurrogates (r1 r2 : Nat) : Char :=
  if 0xD800 ≤ r1 ∧ r1 < 0xDC00 ∧ 0xDC00 ≤ r2 ∧ r2 < 0xE000 then
    Char.ofNat ((r1 - 0xD800) * 1024 + (r2 - 0xDC00) + 0x10000)
  else replacementChar

/-- Put a decoded character in front of the rest of a string scan. -/
def consChar (c : Char) : Option (List Char × List Char) → Option (List Char × List Char)
  | none => none
  | some (s, rest) => some (c :: s, rest)

/-- The code unit of a `\u` escape at the head of the input and what follows the escape
(`getu4` on the text after a first `\u` escape). -/
def getu4At : List Char → Option (Nat × List Char)
  | b :: u :: l1 :: l2 :: l3 :: l4 :: rest =>
    if b = '\\' ∧ u = 'u' then
      match getu4 l1 l2 l3 l4 with
      | some r => some (r, rest)
      | none => none
    else none
  | _ => none

/-- One step of reading a string literal. -/
inductive StrStep where
  /-- The closing quote; `rest` follows it. -/
  | stop (rest : List Char)
  /-- One character of the string; `rest` is still to read. -/
  | emit (c : Char) (rest : List Char)
  /-- The input is no string literal. -/
  | bad

/-- Reading a `\u` escape, the input standing after the `u`: a code unit that is no
surrogate denotes itself; a surrogate followed by a `\u` escape that completes the pair
denotes the pair's character and both escapes are consumed; any other surrogate denotes
U+FFFD. -/
def escapeU : List Char → StrStep
  | h1 :: h2 :: h3 :: h4 :: cs2 =>
    match getu4 h1 h2 h3 h4 with
    | none => .bad
    | some rr =>
      if isSurrogate rr then
        match getu4At cs2 with
        | some (rr1, cs3) =>
          if decodeSurrogates rr rr1 ≠ replacementChar then .emit (decodeSurrogates rr rr1) cs3
          else .emit replacementChar cs2
        | none => .emit replacementChar cs2
      else .emit (Char.ofNat rr) cs2
  | _ => .bad

/-- Reading a string literal at the head of the input, after the opening quote: control
characters and unknown escapes are refused. -/
def strStep : List Char → StrStep
  | [] => .bad
  | c :: cs =>
    if c = '"' then .stop cs
    else if c = '\\' then
      match cs with
      | [] => .bad
      | e :: cs1 =>
        if e = 'u' then escapeU cs1
        else
          match unescape e with
          | none => .bad
          | some ch => .emit ch cs1
    else if c.toNat < 32 then .bad
    else .emit c cs

/-- Read a string literal in at most `fuel` steps. -/
def scanStringFuel : Nat → List Char → Option (List Char × List Char)
  | 0, _ => none
  | fuel + 1, cs =>
    match strStep cs with
    | .bad => none
    | .stop rest => some ([], rest)
    | .emit c rest => consChar c (scanStringFuel fuel rest)

/-- A JSON string literal after its opening quote: the string it denotes and what follows
the closing quote. Every step consumes a character, so the length of the input is fuel
enough. -/
def scanString (cs : List Char) : Option (List Char × List Char) :=
  scanStringFuel cs.length cs

/-- Strip a literal word from the head of the input. -/
def stripWord : List Char → List Char → Option (List Char)
  | [], cs => some cs
  | _ :: _, [] => none
  | w :: ws, c :: cs => if w = c then stripWord ws cs else none

/-- One of the literals `true`, `false`, `null` at the head of the input. -/
def scanLiteral (cs : List Char) : Option (JValue × List Char) :=
  match stripWord ['t', 'r', 'u', 'e'] cs with
  | some rest => some (JValue.bool true, rest)
  | none =>
    match stripWord ['f', 'a', 'l', 's', 'e'] cs with
    | some rest => some (JValue.bool false, rest)
    | none =>
      match stripWord ['n', 'u', 'l', 'l'] cs with
      | some rest => some (JValue.null, rest)
      | none => none

/-- Deepest nesting of arrays and objects the scanner of `encoding/json` accepts. -/
def maxNestingDepth : Nat := 10000

/-- The members of an object after its opening brace, up to and including the closing
brace; `pv` parses a member's value. At least one member is expected. -/
def parseMembersWith (pv : List Char → Option (JValue × List Char)) :
    Nat → List Char → Option (List (String × JValue) × List Char)
  | 0, _ => none
  | fuel + 1, cs =>
    match skipWS cs with
    | [] => none
    | q :: t =>
      if q = '"' then
        match scanString t with
        | none => none
        | some (k, r1) =>
          match skipWS r1 with
          | [] => none
          | c1 :: r2 =>
            if c1 = ':' then
              match pv (skipWS r2) with
              | none => none
              | some (v, r3) =>
                match skipWS r3 with
                | [] => none
                | c2 :: r4 =>
                  if c2 = ',' then
                    match parseMembersWith pv fuel r4 with
                    | none => none
                    | some (ms, r5) => some ((String.mk k, v) :: ms, r5)
                  else if c2 = '\x7d' then some ([(String.mk k, v)], r4)
                  else none
            else none
      else none

/-- The elements of an array after its opening bracket, up to and including the closing
bracket; `pv` parses an element. At least one element is expected. -/
def parseElementsWith (pv : List Char → Option (JValue × List Char)) :
    Nat → List Char → Option (List JValue × List Char)
  | 0, _ => none
  | fuel + 1, cs =>
    match pv (skipWS cs) with
    | none => none
    | some (v, r1) =>
      match skipWS r1 with
      | [] => none
      | c :: r2 =>
        if c = ',' then
          match parseElementsWith pv fuel r2 with
          | none => none
          | some (vs, r3) => some (v :: vs, r3)
        else if c = ']' then some ([v], r2)
        else none

/-- One JSON value at the head of the input (no leading white space), inside `depth`
open arrays and objects: the value and what follows it. -/
def parseValue : Nat → Nat → List Char → Option (JValue × List Char)
  | 0, _, _ => none
  | _ + 1, _, [] => none
  | fuel + 1, depth, c :: t =>
    if c = '\x7b' then
      if depth < maxNestingDepth then
        match skipWS t with
        | [] => none
        | c1 :: r =>
          if c1 = '\x7d' then some (JValue.obj [], r)
          else
            match parseMembersWith (fun s => parseValue fuel (depth + 1) s) fuel (c1 :: r) with
            | none => none
            | some (ms, r1) => some (JValue.obj ms, r1)
      else none
    else if c = '[' then
      if depth < maxNestingDepth then
        match skipWS t with
        | [] => none
        | c1 :: r =>
          if c1 = ']' then some (JValue.arr [], r)
          else
            match parseElementsWith (fun s => parseValue fuel (depth + 1) s) fuel (c1 :: r) with
            | none => none
            | some (vs, r1) => some (JValue.arr vs, r1)
      else none
    else if c = '"' then
      match scanString t with
      | none => none
      | some (str, r) => some (JValue.str (String.mk str), r)
    else if c = '-' ∨ isDigit c then
      match scanNumber (c :: t) with
      | none => none
      | some (lit, r) => some (JValue.num lit, r)
    else scanLiteral (c :: t)

/-- A whole JSON text: one value with optional white space around it (`checkValid`). -/
def parseJSON (data : Payload) : Option JValue :=
  match parseValue (data.length + 1) 0 (skipWS data) with
  | none => none
  | some (v, rest) => if skipWS rest = [] then some v else none

/-- The fields of `Asset`. -/
inductive Field where
  | DEALERID | MSISDN | MPIN | BALANCE | STATUS | TRANSAMOUNT | TRANSTYPE | REMARKS
deriving DecidableEq, Repr

/-- The `json` tag of a field. -/
def Field.tag : Field → String
  | .DEALERID => "DEALERID"
  | .MSISDN => "MSISDN"
  | .MPIN => "ID"
  | .BALANCE => "BALANCE"
  | .STATUS => "Status"
  | .TRANSAMOUNT => "TRANSAM"
  | .TRANSTYPE => "TRANS"
  | .REMARKS => "REMARKS"

/-- All fields, in declaration order. -/
def Field.all : List Field :=
  [.DEALERID, .MSISDN, .MPIN, .BALANCE, .STATUS, .TRANSAMOUNT, .TRANSTYPE, .REMARKS]

/-- Case folding of one character as far as it can meet an ASCII tag: a lower-case ASCII
letter becomes upper case, U+017F folds to `S`, U+212A folds to `K`; the fold of any other
character is not an ASCII character, and it is left as it is. -/
def foldRune (c : Char) : Char :=
  if 97 ≤ c.toNat ∧ c.toNat ≤ 122 then Char.ofNat (c.toNat - 32)
  else if c = '\u017f' then 'S'
  else if c = '\u212a' then 'K'
  else c

/-- Case folding of an object key (`foldName`). -/
def foldName (s : String) : List Char := s.data.map foldRune

/-- The field an object key addresses: the field whose tag is the key, else the field
whose tag equals the key up to case folding, else none. -/
def findField (key : String) : Option Field :=
  match Field.all.find? (fun f => f.tag = key) with
  | some f => some f
  | none => Field.all.find? (fun f => foldName f.tag = foldName key)

/-- Value of a non-empty run of decimal digits, `acc` holding the digits read so far. -/
def parseDigits : List Char → Nat → Option Nat
  | [], acc => some acc
  | c :: cs, acc => if isDigit c then parseDigits cs (acc * 10 + (c.toNat - 48)) else none

/-- Go's `strconv.ParseUint(s, 10, 64)` without its upper bound. -/
def parseUint : List Char → Option Nat
  | [] => none
  | c :: cs => parseDigits (c :: cs) 0

/-- Go's `strconv.ParseInt(s, 10, 64)`: an optional sign and decimal digits, the value
within the 64 bit range. -/
def parseInt : List Char → Option Int
  | [] => none
  | c :: cs =>
    if c = '-' then
      match parseUint cs with
      | some u => if u ≤ 9223372036854775808 then some (-(u : Int)) else none
      | none => none
    else
      match parseUint (if c = '+' then cs else c :: cs) with
      | some u => if u < 9223372036854775808 then some (u : Int) else none
      | none => none

/-- Store a JSON value into an `int` field: a number literal that is an `int`, or `null`
(no effect); anything else is a type error. -/
def storeInt (v : JValue) (old : Int) : Option Int :=
  match v with
  | .null => some old
  | .num lit => parseInt lit
  | _ => none

/-- Store a JSON value into a `string` field: a string (its UTF-8 bytes), or `null` (no
effect); anything else is a type error. -/
def storeString (v : JValue) (old : GoString) : Option GoString :=
  match v with
  | .null => some old
  | .str s => some (utf8 s.data)
  | _ => none

/-- Store a JSON value into one field of the asset. -/
def setField (a : Asset) (f : Field) (v : JValue) : Option Asset :=
  match f with
  | .DEALERID => (storeInt v a.DEALERID).map (fun n => { a with DEALERID := n })
  | .MSISDN => (storeString v a.MSISDN).map (fun s => { a with MSISDN := s })
  | .MPIN => (storeString v a.MPIN).map (fun s => { a with MPIN := s })
  | .BALANCE => (storeInt v a.BALANCE).map (fun n => { a with BALANCE := n })
  | .STATUS => (storeString v a.STATUS).map (fun s => { a with STATUS := s })
  | .TRANSAMOUNT => (storeInt v a.TRANSAMOUNT).map (fun n => { a with TRANSAMOUNT := n })
  | .TRANSTYPE => (storeString v a.TRANSTYPE).map (fun s => { a with TRANSTYPE := s })
  | .REMARKS => (storeString v a.REMARKS).map (fun s => { a with REMARKS := s })

/-- Store the members of an object into the asset, in textual order: a member whose key
addresses no field is skipped, a later member overrides an earlier one. -/
def decodeMembers : List (String × JValue) → Asset → Option Asset
  | [], a => some a
  | (k, v) :: ms, a =>
    match findField k with
    | none => decodeMembers ms a
    | some f =>
      match setField a f v with
      | none => none
      | some a1 => decodeMembers ms a1

/-- Errors the contract returns. -/
inductive Err where
  /-- `asset %d does not exist` -/
  | notExist (dealerID : Int)
  /-- `failed to read asset: %v`, wrapping an error of `GetState` -/
  | readFailed
  /-- An error of `json.Unmarshal`, passed on as it is. -/
  | decode
  /-- An error raised by the ledger stub (`PutState`, `GetStateByRange`, an iterator's
  `Next`), passed on as it is. -/
  | ledger
  /-- `failed to put to world state: %v`, wrapping an error of `PutState` -/
  | putFailed
  /-- `failed to retrieve asset history: %v`, wrapping an error of `GetHistoryForKey` -/
  | historyFailed
deriving DecidableEq, Repr

/-- Go's `json.Unmarshal(data, &asset)`: the text must be one JSON value; `null` leaves the
asset as it is, an object stores its members, any other value is a type error. -/
def Unmarshal (data : Payload) (asset : Asset) : Except Err Asset :=
  match parseJSON data with
  | none => .error .decode
  | some .null => .ok asset
  | some (.obj ms) =>
    match decodeMembers ms asset with
    | none => .error .decode
    | some a => .ok a
  | some _ => .error .decode

/-- Go's `json.Marshal(asset)`; an `Asset` has no field the encoder refuses. -/
def Marshal (asset : Asset) : Except Err Payload := .ok (encode asset)

/-- Decoding as the contract does it: `var asset Asset` followed by `json.Unmarshal`. -/
def decode (data : Payload) : Except Err Asset := Unmarshal data Asset.zero

/-! ## The ledger stub (`ctx.GetStub()`) -/

/-- Order of keys in the world state: lexicographic by character. -/
def keyLt : List Char → List Char → Bool
  | _, [] => false
  | [], _ :: _ => true
  | a :: as, b :: bs => decide (a.toNat < b.toNat) || (decide (a = b) && keyLt as bs)

/-- One entry of a range scan (`queryresult.KV`). -/
structure KV where
  Key : String
  Value : Payload
deriving DecidableEq, Repr

/-- One entry of a key's history (`queryresult.KeyModification`): `Value` is `none` for a
nil value, the marker of a deletion. -/
structure KeyModification where
  Value : Option Payload
deriving DecidableEq, Repr

/-- What the contract does with a cursor, as the stub sees it. -/
inductive Event where
  /-- The stub hands out the cursor. -/
  | acquire (cursor : Nat)
  /-- `Next` is called on the cursor. -/
  | next (cursor : Nat)
  /-- `Close` is called on the cursor. -/
  | close (cursor : Nat)
deriving DecidableEq, Repr

/-- The ledger as the contract sees it through the stub: the world state (key and value
pairs in key order), the history of each key, which calls of the stub fail, the number of
cursors handed out so far and the log of cursor events. -/
structure Stub where
  world : List (String × Payload)
  history : String → List (Option Payload)
  getFault : String → Bool
  putFault : String → Bool
  rangeFault : Bool
  historyFault : String → Bool
  nextFault : Nat → Bool
  cursors : Nat
  log : List Event

/-- The value the world state holds under a key. -/
def lookupWorld (key : String) : List (String × Payload) → Option Payload
  | [] => none
  | (k, v) :: rest => if key = k then some v else lookupWorld key rest

/-- Write a value under a key, replacing the value the key held, keeping key order. -/
def putWorld (key : String) (value : Payload) :
    List (String × Payload) → List (String × Payload)
  | [] => [(key, value)]
  | (k, v) :: rest =>
    if key = k then (key, value) :: rest
    else if keyLt key.data k.data then (key, value) :: (k, v) :: rest
    else (k, v) :: putWorld key value rest

/-- The stub's `GetState`: the value under the key, `none` (nil) when the key holds
nothing, or an error. -/
def Stub.GetState (s : Stub) (key : String) : Except Err (Option Payload) :=
  if s.getFault key then .error .ledger else .ok (lookupWorld key s.world)

/-- The stub's `PutState`: writes the value under the key, or fails and writes nothing. -/
def Stub.PutState (s : Stub) (key : String) (value : Payload) : Except Err Unit × Stub :=
  if s.putFault key then (.error .ledger, s)
  else (.ok (), { s with world := putWorld key value s.world })

/-- A cursor handed out by the stub: its number and the outcomes of the calls of `Next`
still to come; `HasNext` holds while that list is not empty. -/
structure Iterator (α : Type) where
  id : Nat
  pending : List (Except Err α)

/-- The outcomes of `Next` over the entries of a scan: the entry, or an error where the
stub is set to fail; `i` is the position of the first entry. -/
def scanItems {α : Type} (fault : Nat → Bool) : Nat → List α → List (Except Err α)
  | _, [] => []
  | i, x :: xs => (if fault i then .error .ledger else .ok x) :: scanItems fault (i + 1) xs

/-- The key lies between the bounds of a range scan; an empty bound is no bound. -/
def inRange (startKey endKey key : String) : Bool :=
  (decide (startKey = "") || !keyLt key.data startKey.data) &&
    (decide (endKey = "") || keyLt key.data endKey.data)

/-- The stub's `GetStateByRange`: a cursor over the entries of the world state between the
bounds, in key order, or an error and no cursor. -/
def Stub.GetStateByRange (s : Stub) (startKey endKey : String) :
    Except Err (Iterator KV) × Stub :=
  if s.rangeFault then (.error .ledger, s)
  else
    (.ok ⟨s.cursors, scanItems s.nextFault 0
        ((s.world.filter (fun e => inRange startKey endKey e.1)).map (fun e => KV.mk e.1 e.2))⟩,
      { s with cursors := s.cursors + 1, log := s.log ++ [Event.acquire s.cursors] })

/-- The stub's `GetHistoryForKey`: a cursor over the history entries of the key, in the
order the ledger yields them, or an error and no cursor. -/
def Stub.GetHistoryForKey (s : Stub) (key : String) :
    Except Err (Iterator KeyModification) × Stub :=
  if s.historyFault key then (.error .ledger, s)
  else
    (.ok ⟨s.cursors, scanItems s.nextFault 0 ((s.history key).map KeyModification.mk)⟩,
      { s with cursors := s.cursors + 1, log := s.log ++ [Event.acquire s.cursors] })

/-- The stub records a call of `Next` on a cursor. -/
def Stub.noteNext (s : Stub) (cursor : Nat) : Stub :=
  { s with log := s.log ++ [Event.next cursor] }

/-- The iterator's `Close`. -/
def Stub.Close (s : Stub) (cursor : Nat) : Stub :=
  { s with log := s.log ++ [Event.close cursor] }

/-! ## The contract -/

/-- An asset written as a composite literal whose strings are string literals. -/
def assetOf (dealerID : Int) (msisdn mpin : String) (balance : Int) (status : String)
    (transAmount : Int) (transType remarks : String) : Asset :=
  { DEALERID := dealerID, MSISDN := goStr msisdn, MPIN := goStr mpin, BALANCE := balance,
    STATUS := goStr status, TRANSAMOUNT := transAmount, TRANSTYPE := goStr transType,
    REMARKS := goStr remarks }

/-- The assets `InitLedger` writes. -/
def seedAssets : List Asset :=
  [assetOf 1201 "+91 000000" "0000" 0 "SUCCESS" 0 "ONLINE" "YES",
   assetOf 1202 "+91 12345" "0000" 100 "FAILURE" 200 "OFFLINE" "NO",
   assetOf 1203 "+91 456787" "0120" 300 "SUCCESS" 500 "ONLINE" "NO",
   assetOf 1204 "+91 56789" "9873" 200 "SUCCESS" 600 "OFFLINE" "YES",
   assetOf 1205 "+91 67894" "15654" 300 "FAILURE" 700 "ONLINE" "NO",
   assetOf 1206 "+91 23456789" "4567" 500 "SUCCESS" 800 "OFFLINE" "YES"]

/-- The loop of `InitLedger` over the assets still to write. -/
def initLoop : List Asset → Stub → Except Err Unit × Stub
  | [], s => (.ok (), s)
  | asset :: rest, s =>
    match Marshal asset with
    | .error e => (.error e, s)
    | .ok assetJSON =>
      match s.PutState (Itoa asset.DEALERID) assetJSON with
      | (.error _, s1) => (.error .putFailed, s1)
      | (.ok _, s1) => initLoop rest s1

/-- `InitLedger` adds a base set of assets to the ledger. -/
def InitLedger (s : Stub) : Except Err Unit × Stub := initLoop seedAssets s

/-- `CreateAsset` adds a new asset to the ledger. -/
def CreateAsset (s : Stub) (dealerID : Int) (msisdn mpin : GoString) (balance transAmount : Int)
    (status transType remarks : GoString) : Except Err Unit × Stub :=
  let asset : Asset :=
    { DEALERID := dealerID, MSISDN := msisdn, MPIN := mpin, BALANCE := balance,
      STATUS := status, TRANSAMOUNT := transAmount, TRANSTYPE := transType,
      REMARKS := remarks }
  match Marshal asset with
  | .error e => (.error e, s)
  | .ok assetJSON => s.PutState (Itoa dealerID) assetJSON

/-- `UpdateAsset` modifies an existing asset in the ledger. -/
def UpdateAsset (s : Stub) (dealerID : Int) (msisdn mpin : GoString) (balance transAmount : Int)
    (status transType remarks : GoString) : Except Err Unit × Stub :=
  match s.GetState (Itoa dealerID) with
  | .error _ => (.error .readFailed, s)
  | .ok none => (.error (.notExist dealerID), s)
  | .ok (some assetJSON) =>
    match Unmarshal assetJSON Asset.zero with
    | .error e => (.error e, s)
    | .ok asset =>
      let asset := { asset with MSISDN := msisdn }
      let asset := { asset with MPIN := mpin }
      let asset := { asset with BALANCE := balance }
      let asset := { asset with STATUS := status }
      let asset := { asset with TRANSAMOUNT := transAmount }
      let asset := { asset with TRANSTYPE := transType }
      let asset := { asset with REMARKS := remarks }
      match Marshal asset with
      | .error e => (.error e, s)
      | .ok updatedAssetJSON => s.PutState (Itoa dealerID) updatedAssetJSON

/-- `ReadAsset` retrieves an asset from the ledger. -/
def ReadAsset (s : Stub) (dealerID : Int) : Except Err Asset :=
  match s.GetState (Itoa dealerID) with
  | .error _ => .error .readFailed
  | .ok none => .error (.notExist dealerID)
  | .ok (some assetJSON) =>
    match Unmarshal assetJSON Asset.zero with
    | .error e => .error e
    | .ok asset => .ok asset

/-- The loop of `GetAllAssets`: `pending` holds the outcomes of the calls of `Next` still
to come on cursor `c`, `assets` the assets appended so far. -/
def allAssetsLoop (c : Nat) : List (Except Err KV) → List Asset → Stub →
    Except Err (List Asset) × Stub
  | [], assets, s => (.ok assets, s)
  | item :: pending, assets, s =>
    match item with
    | .error e => (.error e, s.noteNext c)
    | .ok queryResponse =>
      match Unmarshal queryResponse.Value Asset.zero with
      | .error e => (.error e, s.noteNext c)
      | .ok asset => allAssetsLoop c pending (assets ++ [asset]) (s.noteNext c)

/-- `GetAllAssets` retrieves all assets from the ledger. The deferred `Close` runs when
the body returns, whatever it returns. -/
def GetAllAssets (s : Stub) : Except Err (List Asset) × Stub :=
  match s.GetStateByRange "" "" with
  | (.error e, s1) => (.error e, s1)
  | (.ok iterator, s1) =>
    let body := allAssetsLoop iterator.id iterator.pending [] s1
    (body.1, body.2.Close iterator.id)

/-- The loop of `GetAssetHistory`: `pending` holds the outcomes of the calls of `Next`
still to come on cursor `c`, `assetHistory` the assets appended so far. -/
def historyLoop (c : Nat) : List (Except Err KeyModification) → List Asset → Stub →
    Except Err (List Asset) × Stub
  | [], assetHistory, s => (.ok assetHistory, s)
  | item :: pending, assetHistory, s =>
    match item with
    | .error e => (.error e, s.noteNext c)
    | .ok historyData =>
      match historyData.Value with
      | none => historyLoop c pending assetHistory (s.noteNext c)
      | some value =>
        match Unmarshal value Asset.zero with
        | .error e => (.error e, s.noteNext c)
        | .ok asset => historyLoop c pending (assetHistory ++ [asset]) (s.noteNext c)

/-- `GetAssetHistory` retrieves the history of an asset. The deferred `Close` runs when
the body returns, whatever it returns. -/
def GetAssetHistory (s : Stub) (dealerID : Int) : Except Err (List Asset) × Stub :=
  match s.GetHistoryForKey (Itoa dealerID) with
  | (.error _, s1) => (.error .historyFailed, s1)
  | (.ok historyIterator, s1) =>
    let body := historyLoop historyIterator.id historyIterator.pending [] s1
    (body.1, body.2.Close historyIterator.id)

/-- A ledger that holds nothing and never fails. -/
def Stub.empty : Stub :=
  { world := [], history := fun _ => [], getFault := fun _ => false,
    putFault := fun _ => false, rangeFault := false, historyFault := fun _ => false,
    nextFault := fun _ => false, cursors := 0, log := [] }

/-! ## Notions used in the statements and proofs -/

/-- A character that can follow a number literal and end it. -/
def endsNumber (c : Char) : Bool :=
  !isDigit c && decide (c ≠ '.') && decide (c ≠ 'e') && decide (c ≠ 'E')

/-- What `json.Marshal` followed by `json.Unmarshal` makes of a Go string: every byte that
starts no well-formed encoding replaced by the encoding of U+FFFD. -/
def toValidChars (s : GoString) : List Char :=
  (runes s).map (fun u => u.getD replacementChar)

/-- The Go string with every byte that starts no well-formed encoding replaced by the
encoding of U+FFFD (Go's `strings.ToValidUTF8` with U+FFFD for each such byte). -/
def toValidUTF8 (s : GoString) : GoString := utf8 (toValidChars s)

/-- The asset with every string field made well-formed UTF-8 by `toValidUTF8`. -/
def Asset.sanitized (a : Asset) : Asset :=
  { a with MSISDN := toValidUTF8 a.MSISDN, MPIN := toValidUTF8 a.MPIN,
           STATUS := toValidUTF8 a.STATUS, TRANSTYPE := toValidUTF8 a.TRANSTYPE,
           REMARKS := toValidUTF8 a.REMARKS }

/-- The JSON value the encoded asset spells. -/
def encodedValue (a : Asset) : JValue :=
  JValue.obj
    [("DEALERID", JValue.num (formatInt a.DEALERID)),
     ("MSISDN", JValue.str (String.mk (toValidChars a.MSISDN))),
     ("ID", JValue.str (String.mk (toValidChars a.MPIN))),
     ("BALANCE", JValue.num (formatInt a.BALANCE)),
     ("Status", JValue.str (String.mk (toValidChars a.STATUS))),
     ("TRANSAM", JValue.num (formatInt a.TRANSAMOUNT)),
     ("TRANS", JValue.str (String.mk (toValidChars a.TRANSTYPE))),
     ("REMARKS", JValue.str (String.mk (toValidChars a.REMARKS)))]

/-- The value parser `pv` reads the text `vtext` as the value `v` wherever the text is
followed by a comma or a closing brace, and the text starts with no white space. -/
def Reads (pv : List Char → Option (JValue × List Char)) (vtext : List Char) (v : JValue) :
    Prop :=
  ∀ (c : Char) (rest : List Char), c = ',' ∨ c = '\x7d' →
    pv (vtext ++ c :: rest) = some (v, c :: rest) ∧
      skipWS (vtext ++ c :: rest) = vtext ++ c :: rest

/-- The fields of an asset as the encoder writes them and as the parser reads them. -/
def fieldTexts (a : Asset) : List (String × List Char × JValue) :=
  [("DEALERID", formatInt a.DEALERID, JValue.num (formatInt a.DEALERID)),
   ("MSISDN", quoteString a.MSISDN, JValue.str (String.mk (toValidChars a.MSISDN))),
   ("ID", quoteString a.MPIN, JValue.str (String.mk (toValidChars a.MPIN))),
   ("BALANCE", formatInt a.BALANCE, JValue.num (formatInt a.BALANCE)),
   ("Status", quoteString a.STATUS, JValue.str (String.mk (toValidChars a.STATUS))),
   ("TRANSAM", formatInt a.TRANSAMOUNT, JValue.num (formatInt a.TRANSAMOUNT)),
   ("TRANS", quoteString a.TRANSTYPE, JValue.str (String.mk (toValidChars a.TRANSTYPE))),
   ("REMARKS", quoteString a.REMARKS, JValue.str (String.mk (toValidChars a.REMARKS)))]

/-- The ledger after `InitLedger` on the empty ledger. -/
def seededStub : Stub := (InitLedger Stub.empty).2

/-- The third asset of `InitLedger`. -/
def asset1203 : Asset := assetOf 1203 "+91 456787" "0120" 300 "SUCCESS" 500 "ONLINE" "NO"

/-- The third seed asset with its MSISDN replaced by `+91 000111`. -/
def asset1203Updated : Asset :=
  assetOf 1203 "+91 000111" "0120" 300 "SUCCESS" 500 "ONLINE" "NO"

/-- A record under the key of the third seed asset that differs from it in every other
field. -/
def overwriteRecord : Asset :=
  assetOf 1203 "+91 000111" "4321" 7 "FAILURE" (-9) "OFFLINE" "YES"

/-- The keys of the members of the object a payload spells, in the order they stand in the
payload; `none` when the payload is no JSON object. -/
def memberKeys (p : Payload) : Option (List String) :=
  match parseJSON p with
  | some (JValue.obj ms) => some (ms.map Prod.fst)
  | _ => none

/-- Decode every payload of a list, in order; the first failure is the result. -/
def decodeAll : List Payload → Except Err (List Asset)
  | [] => .ok []
  | p :: ps =>
    match Unmarshal p Asset.zero with
    | .error e => .error e
    | .ok a =>
      match decodeAll ps with
      | .error e => .error e
      | .ok as => .ok (a :: as)

/-- A ledger whose world state holds one payload that decodes and, after it in key order,
one that does not. -/
def brokenStub : Stub :=
  { Stub.empty with world := [("1201", encode asset1203), ("1202", String.data "oops")] }

/-- A ledger whose history of key `1203` holds an update, a deletion marker and the seed
asset, most recent first. -/
def historyStub : Stub :=
  { Stub.empty with
    history := fun k =>
      if k = "1203" then
        [some (encode asset1203Updated), none, some (encode asset1203)]
      else [] }

/-- The payload decodes. -/
def decodes (p : Payload) : Bool :=
  match Unmarshal p Asset.zero with
  | .ok _ => true
  | .error _ => false

/-- The world state after writing the encodings of the assets, in order, each under the
decimal form of its DEALERID. -/
def writeAll (assets : List Asset) (w : List (String × Payload)) : List (String × Payload) :=
  assets.foldl (fun w a => putWorld (Itoa a.DEALERID) (encode a) w) w

/-- The seeded ledger with the second call of `Next` on a cursor set to fail. -/
def nextFailStub : Stub := { seededStub with nextFault := fun i => i == 1 }

/-- The seeded ledger with the stub set to refuse handing out cursors. -/
def noCursorStub : Stub :=
  { seededStub with rangeFault := true, historyFault := fun _ => true }

/-- The world state is consistent: every entry holds a payload that decodes to an asset
whose DEALERID, in decimal, is the entry's key. -/
def Consistent (w : List (String × Payload)) : Prop :=
  ∀ e ∈ w, ∃ a, Unmarshal e.2 Asset.zero = .ok a ∧ Itoa a.DEALERID = e.1

/-- The ledgers reachable from a ledger with an empty world state through `InitLedger`,
`CreateAsset` and `UpdateAsset` (called with values of Go's `int`, whether the call
succeeds or fails); between the calls anything but the world state may change. -/
inductive Reachable : Stub → Prop where
  | empty (s : Stub) : s.world = [] → Reachable s
  | seed (s : Stub) : Reachable s → Reachable (InitLedger s).2
  | create (s : Stub) (dealerID : Int) (msisdn mpin : GoString) (balance transAmount : Int)
      (status transType remarks : GoString) :
      IsGoInt dealerID → IsGoInt balance → IsGoInt transAmount → Reachable s →
      Reachable
        (CreateAsset s dealerID msisdn mpin balance transAmount status transType remarks).2
  | update (s : Stub) (dealerID : Int) (msisdn mpin : GoString) (balance transAmount : Int)
      (status transType remarks : GoString) :
      IsGoInt balance → IsGoInt transAmount → Reachable s →
      Reachable
        (UpdateAsset s dealerID msisdn mpin balance transAmount status transType remarks).2
  | env (s t : Stub) : Reachable s → t.world = s.world → Reachable t

/-- The keys of the world state stand in strictly increasing key order. -/
def Sorted (w : List (String × Payload)) : Prop :=
  List.Pairwise (fun e1 e2 => keyLt e1.1.data e2.1.data = true) w

/-! ## UTF-8 encoding and decoding -/

theorem char_valid (c : Char) : c.toNat < 0xD800 ∨ (0xDFFF < c.toNat ∧ c.toNat < 0x110000) := by
  have := c.valid
  simp only [UInt32.isValidChar, Nat.isValidChar] at this
  exact this

theorem ofNat_toNat_of_valid (n : Nat) (h : n < 0xD800 ∨ (0xDFFF < n ∧ n < 0x110000)) :
    (Char.ofNat n).toNat = n := by
  have hv : n.isValidChar := h
  have hlt : n < 4294967296 := by rcases h with h | h <;> omega
  simp only [Char.ofNat, hv, dif_pos, Char.ofNatAux, Char.toNat]
  show (UInt32.mk ⟨n, _⟩).toNat = n
  rfl

theorem decodeMulti_two (b0 b1 lo hi : Nat) (r : List Nat) (h : ¬ (b1 < lo ∨ hi < b1)) :
    decodeMulti b0 2 lo hi (b1 :: r) = some (Char.ofNat (b0 % 32 * 64 + b1 % 64), r) := by
  simp only [decodeMulti]
  rw [if_neg h, if_pos (Nat.le_refl 2)]

theorem decodeMulti_three (b0 b1 b2 lo hi : Nat) (r : List Nat) (h : ¬ (b1 < lo ∨ hi < b1))
    (h2 : isCont b2 = true) :
    decodeMulti b0 3 lo hi (b1 :: b2 :: r)
      = some (Char.ofNat (b0 % 16 * 4096 + b1 % 64 * 64 + b2 % 64), r) := by
  simp only [decodeMulti]
  rw [if_neg h, if_neg (by decide), if_neg (by rw [h2]; decide), if_pos (Nat.le_refl 3)]

theorem decodeMulti_four (b0 b1 b2 b3 lo hi : Nat) (r : List Nat)
    (h : ¬ (b1 < lo ∨ hi < b1)) (h2 : isCont b2 = true) (h3 : isCont b3 = true) :
    decodeMulti b0 4 lo hi (b1 :: b2 :: b3 :: r)
      = some (Char.ofNat (b0 % 8 * 262144 + b1 % 64 * 4096 + b2 % 64 * 64 + b3 % 64), r) := by
  simp only [decodeMulti]
  rw [if_neg h, if_neg (by decide), if_neg (by rw [h2]; decide), if_neg (by decide),
    if_neg (by rw [h3]; decide)]

theorem decodeRune_lead (b0 sz lo hi : Nat) (rest : List Nat) (h0 : ¬ b0 < 0x80)
    (hl : leadInfo b0 = some (sz, lo, hi)) :
    decodeRune b0 rest = decodeMulti b0 sz lo hi rest := by
  unfold decodeRune
  rw [if_neg h0, hl]

theorem isCont_low (n : Nat) : isCont (0x80 + n % 64) = true := by
  have : n % 64 < 64 := Nat.mod_lt _ (by decide)
  simp only [isCont, decide_eq_true_eq]
  omega

/-- Decoding the UTF-8 encoding of a character gives the character and consumes exactly
its bytes. -/
theorem decodeRune_utf8Char (c : Char) (rest : List Nat) :
    ∃ b bs, utf8Char c ++ rest = b :: bs ∧ decodeRune b bs = some (c, rest) := by
  have hv := char_valid c
  by_cases h1 : c.toNat < 0x80
  · refine ⟨c.toNat, rest, by simp [utf8Char, h1], ?_⟩
    unfold decodeRune
    rw [if_pos h1, Char.ofNat_toNat]
  by_cases h2 : c.toNat < 0x800
  · refine ⟨0xC0 + c.toNat / 64, (0x80 + c.toNat % 64) :: rest, by simp [utf8Char, h1, h2], ?_⟩
    have hl : leadInfo (0xC0 + c.toNat / 64) = some (2, 0x80, 0xBF) := by
      unfold leadInfo
      rw [if_pos (by omega)]
    rw [decodeRune_lead _ _ _ _ _ (by omega) hl, decodeMulti_two _ _ _ _ _ (by omega)]
    have hval : (0xC0 + c.toNat / 64) % 32 * 64 + (0x80 + c.toNat % 64) % 64 = c.toNat := by
      omega
    rw [hval, Char.ofNat_toNat]
  by_cases h3 : c.toNat < 0x10000
  · refine ⟨0xE0 + c.toNat / 4096, (0x80 + c.toNat / 64 % 64) :: (0x80 + c.toNat % 64) :: rest,
      by simp [utf8Char, h1, h2, h3], ?_⟩
    have hl : ∃ lo hi, leadInfo (0xE0 + c.toNat / 4096) = some (3, lo, hi) ∧
        ¬ (0x80 + c.toNat / 64 % 64 < lo ∨ hi < 0x80 + c.toNat / 64 % 64) := by
      unfold leadInfo
      by_cases e0 : c.toNat / 4096 = 0
      · refine ⟨0xA0, 0xBF, ?_, by omega⟩
        rw [if_neg (by omega), if_pos (by omega)]
      · by_cases ed : c.toNat / 4096 = 13
        · refine ⟨0x80, 0x9F, ?_, by omega⟩
          rw [if_neg (by omega), if_neg (by omega), if_pos (by omega)]
        · refine ⟨0x80, 0xBF, ?_, by omega⟩
          rw [if_neg (by omega), if_neg (by omega), if_neg (by omega), if_pos (by omega)]
    obtain ⟨lo, hi, hl, hr⟩ := hl
    rw [decodeRune_lead _ _ _ _ _ (by omega) hl,
      decodeMulti_three _ _ _ _ _ _ hr (isCont_low _)]
    have hval : (0xE0 + c.toNat / 4096) % 16 * 4096 + (0x80 + c.toNat / 64 % 64) % 64 * 64
        + (0x80 + c.toNat % 64) % 64 = c.toNat := by omega
    rw [hval, Char.ofNat_toNat]
  · refine ⟨0xF0 + c.toNat / 262144,
      (0x80 + c.toNat / 4096 % 64) :: (0x80 + c.toNat / 64 % 64) :: (0x80 + c.toNat % 64) :: rest,
      by simp [utf8Char, h1, h2, h3], ?_⟩
    have hl : ∃ lo hi, leadInfo (0xF0 + c.toNat / 262144) = some (4, lo, hi) ∧
        ¬ (0x80 + c.toNat / 4096 % 64 < lo ∨ hi < 0x80 + c.toNat / 4096 % 64) := by
      unfold leadInfo
      by_cases e0 : c.toNat / 262144 = 0
      · refine ⟨0x90, 0xBF, ?_, by omega⟩
        rw [if_neg (by omega), if_neg (by omega), if_neg (by omega), if_neg (by omega),
          if_pos (by omega)]
      · by_cases e4 : c.toNat / 262144 = 4
        · refine ⟨0x80, 0x8F, ?_, by omega⟩
          rw [if_neg (by omega), if_neg (by omega), if_neg (by omega), if_neg (by omega),
            if_neg (by omega), if_neg (by omega), if_pos (by omega)]
        · refine ⟨0x80, 0xBF, ?_, by omega⟩
          rw [if_neg (by omega), if_neg (by omega), if_neg (by omega), if_neg (by omega),
            if_neg (by omega), if_pos (by omega)]
    obtain ⟨lo, hi, hl, hr⟩ := hl
    rw [decodeRune_lead _ _ _ _ _ (by omega) hl,
      decodeMulti_four _ _ _ _ _ _ _ hr (isCont_low _) (isCont_low _)]
    have hval : (0xF0 + c.toNat / 262144) % 8 * 262144 + (0x80 + c.toNat / 4096 % 64) % 64 * 4096
        + (0x80 + c.toNat / 64 % 64) % 64 * 64 + (0x80 + c.toNat % 64) % 64 = c.toNat := by omega
    rw [hval, Char.ofNat_toNat]

theorem utf8Char_toNat_small (n : Nat) (h : n < 0x80) :
    utf8Char (Char.ofNat n) = [n] := by
  have hn := ofNat_toNat_of_valid n (by omega)
  unfold utf8Char
  rw [hn, if_pos h]

theorem leadInfo_cases (b sz lo hi : Nat) (h : leadInfo b = some (sz, lo, hi)) :
    (sz = 2 ∧ 0xC2 ≤ b ∧ b ≤ 0xDF ∧ lo = 0x80 ∧ hi = 0xBF) ∨
    (sz = 3 ∧ b = 0xE0 ∧ lo = 0xA0 ∧ hi = 0xBF) ∨
    (sz = 3 ∧ b = 0xED ∧ lo = 0x80 ∧ hi = 0x9F) ∨
    (sz = 3 ∧ 0xE1 ≤ b ∧ b ≤ 0xEF ∧ b ≠ 0xED ∧ lo = 0x80 ∧ hi = 0xBF) ∨
    (sz = 4 ∧ b = 0xF0 ∧ lo = 0x90 ∧ hi = 0xBF) ∨
    (sz = 4 ∧ 0xF1 ≤ b ∧ b ≤ 0xF3 ∧ lo = 0x80 ∧ hi = 0xBF) ∨
    (sz = 4 ∧ b = 0xF4 ∧ lo = 0x80 ∧ hi = 0x8F) := by
  unfold leadInfo at h
  split at h
  · simp only [Option.some.injEq, Prod.mk.injEq] at h
    omega
  split at h
  · simp only [Option.some.injEq, Prod.mk.injEq] at h
    omega
  split at h
  · simp only [Option.some.injEq, Prod.mk.injEq] at h
    omega
  split at h
  · simp only [Option.some.injEq, Prod.mk.injEq] at h
    omega
  split at h
  · simp only [Option.some.injEq, Prod.mk.injEq] at h
    omega
  split at h
  · simp only [Option.some.injEq, Prod.mk.injEq] at h
    omega
  split at h
  · simp only [Option.some.injEq, Prod.mk.injEq] at h
    omega
  · exact Option.noConfusion h

theorem utf8Char_two (b0 b1 : Nat) (h0 : 0xC2 ≤ b0 ∧ b0 ≤ 0xDF)
    (h1 : 0x80 ≤ b1 ∧ b1 ≤ 0xBF) :
    utf8Char (Char.ofNat (b0 % 32 * 64 + b1 % 64)) = [b0, b1] := by
  have hn := ofNat_toNat_of_valid (b0 % 32 * 64 + b1 % 64) (by omega)
  unfold utf8Char
  rw [hn, if_neg (by omega), if_pos (by omega)]
  congr 1
  · omega
  · congr 1
    omega

theorem utf8Char_three (b0 b1 b2 lo hi : Nat)
    (h0 : (b0 = 0xE0 ∧ lo = 0xA0 ∧ hi = 0xBF) ∨ (b0 = 0xED ∧ lo = 0x80 ∧ hi = 0x9F) ∨
      (0xE1 ≤ b0 ∧ b0 ≤ 0xEF ∧ b0 ≠ 0xED ∧ lo = 0x80 ∧ hi = 0xBF))
    (h1 : lo ≤ b1 ∧ b1 ≤ hi) (h2 : 0x80 ≤ b2 ∧ b2 ≤ 0xBF) :
    utf8Char (Char.ofNat (b0 % 16 * 4096 + b1 % 64 * 64 + b2 % 64)) = [b0, b1, b2] := by
  have hn := ofNat_toNat_of_valid (b0 % 16 * 4096 + b1 % 64 * 64 + b2 % 64) (by omega)
  unfold utf8Char
  rw [hn, if_neg (by omega), if_neg (by omega), if_pos (by omega)]
  congr 1
  · omega
  · congr 1
    · omega
    · congr 1
      omega

theorem utf8Char_four (b0 b1 b2 b3 lo hi : Nat)
    (h0 : (b0 = 0xF0 ∧ lo = 0x90 ∧ hi = 0xBF) ∨
      (0xF1 ≤ b0 ∧ b0 ≤ 0xF3 ∧ lo = 0x80 ∧ hi = 0xBF) ∨
      (b0 = 0xF4 ∧ lo = 0x80 ∧ hi = 0x8F))
    (h1 : lo ≤ b1 ∧ b1 ≤ hi) (h2 : 0x80 ≤ b2 ∧ b2 ≤ 0xBF)
    (h3 : 0x80 ≤ b3 ∧ b3 ≤ 0xBF) :
    utf8Char (Char.ofNat (b0 % 8 * 262144 + b1 % 64 * 4096 + b2 % 64 * 64 + b3 % 64))
      = [b0, b1, b2, b3] := by
  have hn := ofNat_toNat_of_valid (b0 % 8 * 262144 + b1 % 64 * 4096 + b2 % 64 * 64 + b3 % 64)
    (by omega)
  unfold utf8Char
  rw [hn, if_neg (by omega), if_neg (by omega), if_neg (by omega)]
  congr 1
  · omega
  · congr 1
    · omega
    · congr 1
      · omega
      · congr 1
        omega

theorem isCont_iff (b : Nat) (h : ¬ isCont b = false) : 0x80 ≤ b ∧ b ≤ 0xBF := by
  simpa [isCont] using h

/-- What the decoder reads as a character is the UTF-8 encoding of that character. -/
theorem decodeRune_some (b0 : Nat) (rest : List Nat) (c : Char) (r : List Nat)
    (h : decodeRune b0 rest = some (c, r)) : b0 :: rest = utf8Char c ++ r := by
  unfold decodeRune at h
  split at h
  · rename_i h0
    simp only [Option.some.injEq, Prod.mk.injEq] at h
    rw [← h.1, ← h.2, utf8Char_toNat_small b0 h0]
    rfl
  · cases hl : leadInfo b0 with
    | none => rw [hl] at h; exact Option.noConfusion h
    | some info =>
      obtain ⟨sz, lo, hi⟩ := info
      rw [hl] at h
      simp only at h
      have hcases := leadInfo_cases b0 sz lo hi hl
      match rest, h with
      | [], h => simp [decodeMulti] at h
      | b1 :: r1, h =>
        simp only [decodeMulti] at h
        split at h
        · exact Option.noConfusion h
        rename_i hb1
        split at h
        · rename_i hsz
          simp only [Option.some.injEq, Prod.mk.injEq] at h
          rw [← h.1, ← h.2, utf8Char_two b0 b1 (by omega) (by omega)]
          rfl
        rename_i hsz
        match r1, h with
        | [], h => exact Option.noConfusion h
        | b2 :: r2, h =>
          simp only at h
          split at h
          · exact Option.noConfusion h
          rename_i hb2
          have hc2 := isCont_iff b2 hb2
          split at h
          · rename_i hsz3
            simp only [Option.some.injEq, Prod.mk.injEq] at h
            rw [← h.1, ← h.2, utf8Char_three b0 b1 b2 lo hi (by omega) (by omega) hc2]
            rfl
          rename_i hsz3
          match r2, h with
          | [], h => exact Option.noConfusion h
          | b3 :: r3, h =>
            simp only at h
            split at h
            · exact Option.noConfusion h
            rename_i hb3
            have hc3 := isCont_iff b3 hb3
            simp only [Option.some.injEq, Prod.mk.injEq] at h
            rw [← h.1, ← h.2, utf8Char_four b0 b1 b2 b3 lo hi (by omega) (by omega) hc2 hc3]
            rfl

theorem utf8Char_ne_nil (c : Char) : ∃ b bs, utf8Char c = b :: bs := by
  unfold utf8Char
  split
  · exact ⟨_, _, rfl⟩
  split
  · exact ⟨_, _, rfl⟩
  split
  · exact ⟨_, _, rfl⟩
  · exact ⟨_, _, rfl⟩

theorem decodeRune_length (b0 : Nat) (rest : List Nat) (c : Char) (r : List Nat)
    (h : decodeRune b0 rest = some (c, r)) : r.length ≤ rest.length := by
  have h1 := decodeRune_some b0 rest c r h
  obtain ⟨b, bs, hb⟩ := utf8Char_ne_nil c
  have h2 := congrArg List.length h1
  rw [hb] at h2
  simp only [List.length_cons, List.length_append] at h2
  omega

/-- The walk over a string does not depend on its fuel once the fuel covers the string. -/
theorem runesFuel_fuel (f1 f2 : Nat) (s : List Nat) (h1 : s.length ≤ f1) (h2 : s.length ≤ f2) :
    runesFuel f1 s = runesFuel f2 s := by
  induction f1 generalizing f2 s with
  | zero =>
    have : s = [] := List.length_eq_zero.mp (by omega)
    subst this
    cases f2 <;> rfl
  | succ f ih =>
    cases s with
    | nil => cases f2 <;> rfl
    | cons b rest =>
      cases f2 with
      | zero => simp at h2
      | succ g =>
        simp only [List.length_cons] at h1 h2
        simp only [runesFuel]
        cases hd : decodeRune b rest with
        | none =>
          simp only
          rw [ih g rest (by omega) (by omega)]
        | some p =>
          obtain ⟨c, r⟩ := p
          have := decodeRune_length b rest c r hd
          simp only
          rw [ih g r (by omega) (by omega)]

theorem runes_nil : runes [] = [] := rfl

theorem runes_cons_some (b : Nat) (rest : List Nat) (c : Char) (r : List Nat)
    (h : decodeRune b rest = some (c, r)) : runes (b :: rest) = some c :: runes r := by
  have hl := decodeRune_length b rest c r h
  simp only [runes, List.length_cons, runesFuel, h]
  rw [runesFuel_fuel rest.length r.length r hl (Nat.le_refl _)]

theorem runes_cons_none (b : Nat) (rest : List Nat) (h : decodeRune b rest = none) :
    runes (b :: rest) = none :: runes rest := by
  simp only [runes, List.length_cons, runesFuel, h]

/-- The walk over the encoding of a sequence of characters meets these characters. -/
theorem runes_utf8 (cs : List Char) : runes (utf8 cs) = cs.map some := by
  induction cs with
  | nil => rfl
  | cons c cs ih =>
    obtain ⟨b, bs, hb, hd⟩ := decodeRune_utf8Char c (utf8 cs)
    simp only [utf8, hb, List.map_cons]
    rw [runes_cons_some b bs c (utf8 cs) hd, ih]

theorem toValidChars_utf8 (cs : List Char) : toValidChars (utf8 cs) = cs := by
  simp only [toValidChars, runes_utf8, List.map_map]
  induction cs with
  | nil => rfl
  | cons c cs ih => simp only [List.map_cons, Function.comp_apply, Option.getD_some, ih]

/-- The encoding of a sequence of characters is well-formed UTF-8. -/
theorem validUTF8_utf8 (cs : List Char) : validUTF8 (utf8 cs) = true := by
  simp only [validUTF8, runes_utf8]
  induction cs with
  | nil => rfl
  | cons c cs ih => simp

theorem toValidUTF8_of_valid_aux (n : Nat) (s : GoString) (hn : s.length ≤ n)
    (h : validUTF8 s = true) : toValidUTF8 s = s := by
  induction n generalizing s with
  | zero =>
    have : s = [] := List.length_eq_zero.mp (by omega)
    subst this
    rfl
  | succ n ih =>
    cases s with
    | nil => rfl
    | cons b rest =>
      cases hd : decodeRune b rest with
      | none =>
        exfalso
        simp [validUTF8, runes_cons_none b rest hd] at h
      | some p =>
        obtain ⟨c, r⟩ := p
        have hl := decodeRune_length b rest c r hd
        have hs := decodeRune_some b rest c r hd
        have hr : validUTF8 r = true := by
          simp only [validUTF8, runes_cons_some b rest c r hd, List.all_cons, Option.isSome_some,
            Bool.true_and] at h
          exact h
        simp only [List.length_cons] at hn
        have := ih r (by omega) hr
        simp only [toValidUTF8, toValidChars] at this ⊢
        rw [runes_cons_some b rest c r hd]
        simp only [List.map_cons, Option.getD_some, utf8]
        rw [this, hs]

/-- A well-formed string is left as it is. -/
theorem toValidUTF8_of_valid (s : GoString) (h : validUTF8 s = true) : toValidUTF8 s = s :=
  toValidUTF8_of_valid_aux s.length s (Nat.le_refl _) h

theorem validUTF8_toValidUTF8 (s : GoString) : validUTF8 (toValidUTF8 s) = true :=
  validUTF8_utf8 _

/-! ## Decimal formatting and parsing -/

theorem natDigits_acc (fuel n : Nat) (acc : List Char) :
    natDigits fuel n acc = natDigits fuel n [] ++ acc := by
  induction fuel generalizing n acc with
  | zero => simp [natDigits]
  | succ f ih =>
    simp only [natDigits]
    split
    · simp
    · rw [ih (n / 10) (digitChar (n % 10) :: acc), ih (n / 10) [digitChar (n % 10)]]
      simp

theorem natDigits_fuel (f1 f2 n : Nat) (acc : List Char) (h1 : n < f1) (h2 : n < f2) :
    natDigits f1 n acc = natDigits f2 n acc := by
  induction f1 generalizing f2 n acc with
  | zero => omega
  | succ f ih =>
    cases f2 with
    | zero => omega
    | succ g =>
      simp only [natDigits]
      split
      · rfl
      · rename_i hn
        have hlt : n / 10 < n := Nat.div_lt_self (by omega) (by omega)
        exact ih g (n / 10) _ (by omega) (by omega)

theorem formatNat_small (n : Nat) (h : n < 10) : formatNat n = [digitChar n] := by
  have h0 : n / 10 = 0 := Nat.div_eq_of_lt h
  simp [formatNat, natDigits, h0, Nat.mod_eq_of_lt h]

theorem formatNat_step (n : Nat) (h : 10 ≤ n) :
    formatNat n = formatNat (n / 10) ++ [digitChar (n % 10)] := by
  have h0 : ¬ n / 10 = 0 := by
    intro hz
    have := Nat.div_add_mod n 10
    have := Nat.mod_lt n (show 10 > 0 by decide)
    omega
  have hlt : n / 10 < n := Nat.div_lt_self (by omega) (by omega)
  unfold formatNat
  rw [natDigits]
  simp only [h0, if_false]
  rw [natDigits_acc, natDigits_fuel n (n / 10 + 1) (n / 10) [] hlt (by omega)]

theorem isDigit_digitChar : ∀ d, d < 10 → isDigit (digitChar d) = true := by decide

theorem digitChar_val : ∀ d, d < 10 → (digitChar d).toNat - 48 = d := by decide

theorem digitChar_zero : ∀ d, d < 10 → digitChar d = '0' → d = 0 := by decide

theorem parseDigits_snoc (xs : List Char) (d : Char) (acc : Nat) :
    parseDigits (xs ++ [d]) acc =
      (parseDigits xs acc).bind
        (fun v => if isDigit d then some (v * 10 + (d.toNat - 48)) else none) := by
  induction xs generalizing acc with
  | nil => simp [parseDigits]
  | cons x xs ih =>
    simp only [List.cons_append, parseDigits]
    split
    · exact ih _
    · rfl

theorem parseDigits_formatNat (n : Nat) : parseDigits (formatNat n) 0 = some n := by
  induction n using Nat.strong_induction_on with
  | _ n ih =>
    by_cases h : n < 10
    · rw [formatNat_small n h]
      simp [parseDigits, isDigit_digitChar n h, digitChar_val n h]
    · have hlt : n / 10 < n := Nat.div_lt_self (by omega) (by omega)
      have hm : n % 10 < 10 := Nat.mod_lt n (by decide)
      rw [formatNat_step n (by omega), parseDigits_snoc, ih (n / 10) hlt]
      simp only [Option.some_bind, isDigit_digitChar _ hm, digitChar_val _ hm, if_true]
      congr 1
      omega

theorem formatNat_all_digits (n : Nat) : ∀ c ∈ formatNat n, isDigit c = true := by
  induction n using Nat.strong_induction_on with
  | _ n ih =>
    by_cases h : n < 10
    · rw [formatNat_small n h]
      intro c hc
      simp only [List.mem_singleton] at hc
      subst hc
      exact isDigit_digitChar n h
    · have hlt : n / 10 < n := Nat.div_lt_self (by omega) (by omega)
      have hm : n % 10 < 10 := Nat.mod_lt n (by decide)
      rw [formatNat_step n (by omega)]
      intro c hc
      rcases List.mem_append.mp hc with hc | hc
      · exact ih (n / 10) hlt c hc
      · simp only [List.mem_singleton] at hc
        subst hc
        exact isDigit_digitChar _ hm

/-- The decimal form of a natural number starts with a digit, and with `0` only when the
number is zero and that digit is all of it. -/
theorem formatNat_head (n : Nat) :
    ∃ c cs, formatNat n = c :: cs ∧ isDigit c = true ∧ (c = '0' → n = 0 ∧ cs = []) := by
  induction n using Nat.strong_induction_on with
  | _ n ih =>
    by_cases h : n < 10
    · refine ⟨digitChar n, [], formatNat_small n h, isDigit_digitChar n h, ?_⟩
      intro hc
      exact ⟨digitChar_zero n h hc, rfl⟩
    · have hlt : n / 10 < n := Nat.div_lt_self (by omega) (by omega)
      obtain ⟨c, cs, hcs, hd, hz⟩ := ih (n / 10) hlt
      refine ⟨c, cs ++ [digitChar (n % 10)], ?_, hd, ?_⟩
      · rw [formatNat_step n (by omega), hcs]
        rfl
      · intro hc
        have := (hz hc).1
        omega

theorem isDigit_ne (c d : Char) (hc : isDigit c = true) (hd : isDigit d = false) : c ≠ d := by
  intro h
  subst h
  rw [hc] at hd
  exact Bool.noConfusion hd

theorem spanDigits_append (ds : List Char) (c : Char) (rest : List Char)
    (hds : ∀ x ∈ ds, isDigit x = true) (hc : isDigit c = false) :
    spanDigits (ds ++ c :: rest) = (ds, c :: rest) := by
  induction ds with
  | nil => simp [spanDigits, hc]
  | cons x xs ih =>
    have hx : isDigit x = true := hds x (List.mem_cons_self _ _)
    have hxs : ∀ y ∈ xs, isDigit y = true := fun y hy => hds y (List.mem_cons_of_mem _ hy)
    simp [spanDigits, hx, ih hxs]

theorem scanUnsigned_formatNat (n : Nat) (c : Char) (rest : List Char)
    (hc : endsNumber c = true) :
    scanUnsigned (formatNat n ++ c :: rest) = some (formatNat n, c :: rest) := by
  simp only [endsNumber, Bool.and_eq_true, Bool.not_eq_true', decide_eq_true_eq] at hc
  obtain ⟨⟨⟨hcd, hdot⟩, he⟩, hE⟩ := hc
  obtain ⟨d, ds, hds, hd, hz⟩ := formatNat_head n
  have hall := formatNat_all_digits n
  rw [hds] at hall ⊢
  have htail : ∀ x ∈ ds, isDigit x = true := fun x hx => hall x (List.mem_cons_of_mem _ hx)
  have hint : scanIntPart (d :: ds ++ c :: rest) = some (d :: ds, c :: rest) := by
    simp only [List.cons_append, scanIntPart]
    by_cases h0 : d = '0'
    · have := (hz h0).2
      subst this
      simp [h0]
    · simp [h0, hd, spanDigits_append ds c rest htail hcd]
  simp only [scanUnsigned, hint, scanFrac, hdot, if_false, scanExp, he, hE, or_self]
  simp

theorem formatInt_head (n : Int) :
    ∃ x xs, formatInt n = x :: xs ∧ (x = '-' ∨ isDigit x = true) := by
  unfold formatInt
  split
  · exact ⟨'-', _, rfl, Or.inl rfl⟩
  · obtain ⟨d, ds, hds, hd, _⟩ := formatNat_head n.natAbs
    exact ⟨d, ds, hds, Or.inr hd⟩

theorem scanNumber_formatInt (n : Int) (c : Char) (rest : List Char)
    (hc : endsNumber c = true) :
    scanNumber (formatInt n ++ c :: rest) = some (formatInt n, c :: rest) := by
  unfold formatInt
  split
  · simp [scanNumber, scanUnsigned_formatNat _ c rest hc]
  · obtain ⟨d, ds, hds, hd, _⟩ := formatNat_head n.natAbs
    have hne : d ≠ '-' := isDigit_ne d '-' hd (by decide)
    have := scanUnsigned_formatNat n.natAbs c rest hc
    rw [hds] at this ⊢
    simp only [List.cons_append, scanNumber, hne, if_false]
    exact this

theorem parseInt_formatInt (n : Int) (h : IsGoInt n) : parseInt (formatInt n) = some n := by
  obtain ⟨hlo, hhi⟩ := h
  unfold minInt at hlo
  unfold maxInt at hhi
  obtain ⟨d, ds, hds, hd, _⟩ := formatNat_head n.natAbs
  have hp := parseDigits_formatNat n.natAbs
  unfold formatInt
  split
  · rename_i hneg
    simp only [parseInt, if_true]
    rw [hds]
    simp only [parseUint]
    rw [← hds, hp]
    have : n.natAbs ≤ 9223372036854775808 := by omega
    simp only [this, if_true]
    congr 1
    omega
  · rename_i hpos
    have hm : d ≠ '-' := isDigit_ne d '-' hd (by decide)
    have hq : d ≠ '+' := isDigit_ne d '+' hd (by decide)
    rw [hds]
    simp only [parseInt, hm, hq, if_false, parseUint]
    rw [← hds, hp]
    have : n.natAbs < 9223372036854775808 := by omega
    simp only [this, if_true]
    congr 1
    omega

theorem parseInt_range (lit : List Char) (n : Int) (h : parseInt lit = some n) : IsGoInt n := by
  unfold IsGoInt minInt maxInt
  match lit, h with
  | [], h => simp [parseInt] at h
  | c :: cs, h =>
    simp only [parseInt] at h
    split at h
    · split at h
      · split at h
        · simp only [Option.some.injEq] at h
          omega
        · exact Option.noConfusion h
      · exact Option.noConfusion h
    · split at h
      · split at h
        · simp only [Option.some.injEq] at h
          omega
        · exact Option.noConfusion h
      · exact Option.noConfusion h

theorem formatNat_injective (m n : Nat) (h : formatNat m = formatNat n) : m = n := by
  have hm := parseDigits_formatNat m
  rw [h, parseDigits_formatNat n] at hm
  exact (Option.some.inj hm).symm

theorem formatInt_injective (m n : Int) (h : formatInt m = formatInt n) : m = n := by
  unfold formatInt at h
  obtain ⟨dm, dsm, hdm, hm, _⟩ := formatNat_head m.natAbs
  obtain ⟨dn, dsn, hdn, hn, _⟩ := formatNat_head n.natAbs
  split at h <;> split at h
  · have := formatNat_injective _ _ (List.cons.inj h).2
    omega
  · rw [hdn] at h
    exact absurd (List.cons.inj h).1.symm (isDigit_ne dn '-' hn (by decide))
  · rw [hdm] at h
    exact absurd (List.cons.inj h).1 (isDigit_ne dm '-' hm (by decide))
  · have := formatNat_injective _ _ h
    omega

/-- Two integers with the same decimal form are equal. -/
theorem Itoa_injective (m n : Int) (h : Itoa m = Itoa n) : m = n := by
  unfold Itoa at h
  exact formatInt_injective m n (congrArg String.data h)

/-! ## Reading back what the encoder wrote -/

theorem getu4_low : ∀ n, n < 128 →
    getu4 '0' '0' (hexDigit (n / 16)) (hexDigit (n % 16)) = some n := by decide

theorem isSurrogate_low : ∀ n, n < 128 → isSurrogate n = false := by decide

theorem strStep_escapeChar (c : Char) (tail : List Char) :
    strStep (escapeChar c ++ tail) = StrStep.emit c tail := by
  unfold escapeChar
  split
  · rename_i h
    rcases h with h | h <;> subst h <;> rfl
  split
  · rename_i h; subst h; rfl
  split
  · rename_i h; subst h; rfl
  split
  · rename_i h; subst h; rfl
  split
  · rename_i h; subst h; rfl
  split
  · rename_i h; subst h; rfl
  split
  · rename_i h
    have hlt : c.toNat < 128 := by
      rcases h with h | h | h | h
      · omega
      · subst h; decide
      · subst h; decide
      · subst h; decide
    simp only [List.cons_append, List.nil_append, strStep, escapeU, getu4_low _ hlt,
      isSurrogate_low _ hlt, Char.ofNat_toNat]
    simp
  split
  · rename_i h
    rcases h with h | h <;> subst h <;> rfl
  · rename_i h1 h2 h3 h4 h5 h6 h7 h8
    simp only [not_or] at h1 h7
    simp [strStep, h1.1, h1.2, h7.1]

theorem getu4At_length (cs rest : List Char) (r : Nat) (h : getu4At cs = some (r, rest)) :
    rest.length < cs.length := by
  match cs, h with
  | b :: u :: l1 :: l2 :: l3 :: l4 :: tl, h =>
    simp only [getu4At] at h
    split at h
    · split at h
      · simp only [Option.some.injEq, Prod.mk.injEq] at h
        rw [← h.2]
        simp only [List.length_cons]
        omega
      · exact Option.noConfusion h
    · exact Option.noConfusion h
  | [], h => simp [getu4At] at h
  | [_], h => simp [getu4At] at h
  | [_, _], h => simp [getu4At] at h
  | [_, _, _], h => simp [getu4At] at h
  | [_, _, _, _], h => simp [getu4At] at h
  | [_, _, _, _, _], h => simp [getu4At] at h

theorem escapeU_length (cs rest : List Char) (c : Char) (h : escapeU cs = StrStep.emit c rest) :
    rest.length ≤ cs.length := by
  match cs, h with
  | h1 :: h2 :: h3 :: h4 :: cs2, h =>
    simp only [escapeU] at h
    split at h
    · exact StrStep.noConfusion h
    · split at h
      · split at h
        · rename_i rr1 cs3 hg
          have := getu4At_length _ _ _ hg
          split at h
          · simp only [StrStep.emit.injEq] at h
            rw [← h.2]
            simp only [List.length_cons]
            omega
          · simp only [StrStep.emit.injEq] at h
            rw [← h.2]
            simp only [List.length_cons]
            omega
        · simp only [StrStep.emit.injEq] at h
          rw [← h.2]
          simp only [List.length_cons]
          omega
      · simp only [StrStep.emit.injEq] at h
        rw [← h.2]
        simp only [List.length_cons]
        omega
  | [], h => simp [escapeU] at h
  | [_], h => simp [escapeU] at h
  | [_, _], h => simp [escapeU] at h
  | [_, _, _], h => simp [escapeU] at h

theorem strStep_length (cs rest : List Char) (c : Char) (h : strStep cs = StrStep.emit c rest) :
    rest.length < cs.length := by
  match cs, h with
  | [], h => simp [strStep] at h
  | x :: xs, h =>
    simp only [strStep] at h
    split at h
    · exact StrStep.noConfusion h
    · split at h
      · match xs, h with
        | [], h => exact StrStep.noConfusion h
        | e :: cs1, h =>
          simp only at h
          split at h
          · have := escapeU_length _ _ _ h
            simp only [List.length_cons]
            omega
          · split at h
            · exact StrStep.noConfusion h
            · simp only [StrStep.emit.injEq] at h
              rw [← h.2]
              simp only [List.length_cons]
              omega
      · split at h
        · exact StrStep.noConfusion h
        · simp only [StrStep.emit.injEq] at h
          rw [← h.2]
          simp only [List.length_cons]
          omega

/-- The string scanner does not depend on its fuel once the fuel covers the input. -/
theorem scanStringFuel_fuel (f1 f2 : Nat) (cs : List Char)
    (h1 : cs.length ≤ f1) (h2 : cs.length ≤ f2) :
    scanStringFuel f1 cs = scanStringFuel f2 cs := by
  induction f1 generalizing f2 cs with
  | zero =>
    have : cs = [] := List.length_eq_zero.mp (by omega)
    subst this
    cases f2 <;> simp [scanStringFuel, strStep]
  | succ f ih =>
    cases f2 with
    | zero =>
      have : cs = [] := List.length_eq_zero.mp (by omega)
      subst this
      simp [scanStringFuel, strStep]
    | succ g =>
      simp only [scanStringFuel]
      cases hstep : strStep cs with
      | bad => rfl
      | stop rest => rfl
      | emit c rest =>
        have := strStep_length cs rest c hstep
        simp only
        rw [ih g rest (by omega) (by omega)]

theorem strStep_escapeRune (u : Option Char) (tail : List Char) :
    strStep (escapeRune u ++ tail) = StrStep.emit (u.getD replacementChar) tail := by
  cases u with
  | some c => exact strStep_escapeChar c tail
  | none => rfl

theorem scanStringFuel_escapeRunes (us : List (Option Char)) (rest : List Char) (f : Nat)
    (hf : us.length + 1 ≤ f) :
    scanStringFuel f (escapeRunes us ++ '"' :: rest)
      = some (us.map (fun u => u.getD replacementChar), rest) := by
  induction us generalizing f with
  | nil =>
    obtain ⟨g, rfl⟩ : ∃ g, f = g + 1 := ⟨f - 1, by simp at hf; omega⟩
    simp [escapeRunes, scanStringFuel, strStep]
  | cons u us ih =>
    obtain ⟨g, rfl⟩ : ∃ g, f = g + 1 := ⟨f - 1, by omega⟩
    simp only [escapeRunes, List.append_assoc, scanStringFuel, strStep_escapeRune]
    rw [ih g (by simp only [List.length_cons] at hf; omega)]
    rfl

theorem escapeRunes_length (us : List (Option Char)) : us.length ≤ (escapeRunes us).length := by
  induction us with
  | nil => simp [escapeRunes]
  | cons u us ih =>
    have : 1 ≤ (escapeRune u).length := by
      cases u with
      | none => simp [escapeRune]
      | some c =>
        simp only [escapeRune]
        unfold escapeChar
        repeat (first | split | simp)
    simp only [escapeRunes, List.length_append, List.length_cons]
    omega

/-- Reading back the escaped walk over a string gives the characters of the walk, U+FFFD
where the walk met a byte that starts no encoding. -/
theorem scanString_escapeRunes (us : List (Option Char)) (rest : List Char) :
    scanString (escapeRunes us ++ '"' :: rest)
      = some (us.map (fun u => u.getD replacementChar), rest) := by
  unfold scanString
  apply scanStringFuel_escapeRunes
  have := escapeRunes_length us
  simp only [List.length_append, List.length_cons]
  omega

/-- Reading back a quoted string gives the string with every byte that starts no encoding
replaced by U+FFFD. -/
theorem scanString_quoted (s : GoString) (rest : List Char) :
    scanString (escapeRunes (runes s) ++ '"' :: rest) = some (toValidChars s, rest) :=
  scanString_escapeRunes (runes s) rest

/-- Reading back a key that needs no escape gives the key. -/
theorem scanString_plain (cs rest : List Char) (h : escapeRunes (cs.map some) = cs) :
    scanString (cs ++ '"' :: rest) = some (cs, rest) := by
  have hmap : (cs.map some).map (fun u => u.getD replacementChar) = cs := by
    clear h
    induction cs with
    | nil => rfl
    | cons c cs ih => simp only [List.map_cons, Option.getD_some, ih]
  have := scanString_escapeRunes (cs.map some) rest
  rw [h, hmap] at this
  exact this

theorem parseValue_formatInt (f d : Nat) (n : Int) (c : Char) (rest : List Char)
    (hc : endsNumber c = true) :
    parseValue (f + 1) d (formatInt n ++ c :: rest)
      = some (JValue.num (formatInt n), c :: rest) := by
  have hscan := scanNumber_formatInt n c rest hc
  obtain ⟨x, xs, hx, hhead⟩ := formatInt_head n
  rw [hx] at hscan ⊢
  have h1 : x ≠ '\x7b' := by
    rcases hhead with h | h
    · subst h; decide
    · exact isDigit_ne x _ h (by decide)
  have h2 : x ≠ '[' := by
    rcases hhead with h | h
    · subst h; decide
    · exact isDigit_ne x _ h (by decide)
  have h3 : x ≠ '"' := by
    rcases hhead with h | h
    · subst h; decide
    · exact isDigit_ne x _ h (by decide)
  simp only [List.cons_append] at hscan ⊢
  simp only [parseValue, h1, h2, h3, if_false, hhead, if_true, hscan]

theorem parseValue_quoteString (f d : Nat) (s : GoString) (rest : List Char) :
    parseValue (f + 1) d (quoteString s ++ rest)
      = some (JValue.str (String.mk (toValidChars s)), rest) := by
  simp only [quoteString, List.cons_append, List.append_assoc, List.nil_append, parseValue]
  simp [scanString_quoted]

theorem skipWS_cons (c : Char) (cs : List Char) (h : isSpace c = false) :
    skipWS (c :: cs) = c :: cs := by
  simp [skipWS, h]

theorem skipWS_formatInt (n : Int) (rest : List Char) :
    skipWS (formatInt n ++ rest) = formatInt n ++ rest := by
  obtain ⟨x, xs, hx, hhead⟩ := formatInt_head n
  rw [hx]
  apply skipWS_cons
  rcases hhead with h | h
  · subst h; decide
  · cases hsp : isSpace x with
    | false => rfl
    | true =>
      exfalso
      simp only [isSpace, Bool.decide_or, Bool.or_eq_true, decide_eq_true_eq] at hsp
      rcases hsp with hsp | hsp | hsp | hsp <;> subst hsp <;> exact absurd h (by decide)

theorem skipWS_quoteString (s : GoString) (rest : List Char) :
    skipWS (quoteString s ++ rest) = quoteString s ++ rest := by
  simp only [quoteString, List.cons_append]
  exact skipWS_cons _ _ (by decide)

/-- One member of an object that is followed by a comma: the parser reads the member and
goes on with the members after the comma. -/
theorem parseMembers_comma (pv : List Char → Option (JValue × List Char)) (fuel : Nat)
    (k : String) (vtext : List Char) (v : JValue) (more : List Char)
    (hk : escapeRunes (k.data.map some) = k.data)
    (hws : skipWS (vtext ++ ',' :: more) = vtext ++ ',' :: more)
    (hv : pv (vtext ++ ',' :: more) = some (v, ',' :: more)) :
    parseMembersWith pv (fuel + 1) (keyColon k ++ (vtext ++ ',' :: more))
      = match parseMembersWith pv fuel more with
        | none => none
        | some (ms, r) => some ((k, v) :: ms, r) := by
  have hs : scanString (k.data ++ '"' :: (':' :: (vtext ++ ',' :: more)))
      = some (k.data, ':' :: (vtext ++ ',' :: more)) := by
    exact scanString_plain k.data _ hk
  simp only [keyColon, List.cons_append, List.append_assoc, List.nil_append, parseMembersWith]
  rw [skipWS_cons _ _ (by decide)]
  simp only [if_true, hs]
  rw [skipWS_cons _ _ (by decide)]
  simp only [if_true, hws, hv]
  rw [skipWS_cons _ _ (by decide)]
  simp only [if_true]

/-- The last member of an object, followed by the closing brace. -/
theorem parseMembers_last (pv : List Char → Option (JValue × List Char)) (fuel : Nat)
    (k : String) (vtext : List Char) (v : JValue) (more : List Char)
    (hk : escapeRunes (k.data.map some) = k.data)
    (hws : skipWS (vtext ++ '\x7d' :: more) = vtext ++ '\x7d' :: more)
    (hv : pv (vtext ++ '\x7d' :: more) = some (v, '\x7d' :: more)) :
    parseMembersWith pv (fuel + 1) (keyColon k ++ (vtext ++ '\x7d' :: more))
      = some ([(k, v)], more) := by
  have hs : scanString (k.data ++ '"' :: (':' :: (vtext ++ '\x7d' :: more)))
      = some (k.data, ':' :: (vtext ++ '\x7d' :: more)) := by
    exact scanString_plain k.data _ hk
  simp only [keyColon, List.cons_append, List.append_assoc, List.nil_append, parseMembersWith]
  rw [skipWS_cons _ _ (by decide)]
  simp only [if_true, hs]
  rw [skipWS_cons _ _ (by decide)]
  simp only [if_true, hws, hv]
  rw [skipWS_cons _ _ (by decide)]
  simp only [if_true, show ('\x7d' : Char) ≠ ',' by decide, if_false]

theorem reads_formatInt (f d : Nat) (n : Int) :
    Reads (fun s => parseValue (f + 1) d s) (formatInt n) (JValue.num (formatInt n)) := by
  intro c rest hc
  refine ⟨parseValue_formatInt f d n c rest ?_, skipWS_formatInt n _⟩
  rcases hc with h | h <;> subst h <;> decide

theorem reads_quoteString (f d : Nat) (s : GoString) :
    Reads (fun s => parseValue (f + 1) d s) (quoteString s)
      (JValue.str (String.mk (toValidChars s))) := by
  intro c rest _
  exact ⟨parseValue_quoteString f d s _, skipWS_quoteString s _⟩

/-- The members the encoder joins are read back one by one, in the order written. -/
theorem parseMembers_join (pv : List Char → Option (JValue × List Char))
    (fs : List (String × List Char × JValue)) (rest : List Char) (fuel : Nat)
    (hne : fs ≠ []) (hfuel : fs.length ≤ fuel)
    (hplain : ∀ f ∈ fs, escapeRunes (f.1.data.map some) = f.1.data)
    (hreads : ∀ f ∈ fs, Reads pv f.2.1 f.2.2) :
    parseMembersWith pv fuel (joinMembers (fs.map (fun f => (f.1, f.2.1))) ++ '\x7d' :: rest)
      = some (fs.map (fun f => (f.1, f.2.2)), rest) := by
  induction fs generalizing fuel with
  | nil => exact absurd rfl hne
  | cons f gs ih =>
    obtain ⟨g, rfl⟩ : ∃ g, fuel = g + 1 := ⟨fuel - 1, by simp at hfuel; omega⟩
    have hf := hreads f (List.mem_cons_self _ _)
    have hk := hplain f (List.mem_cons_self _ _)
    cases gs with
    | nil =>
      have h := hf '\x7d' rest (Or.inr rfl)
      simp only [List.map_cons, List.map_nil, joinMembers, List.append_assoc]
      exact parseMembers_last pv g f.1 f.2.1 f.2.2 rest hk h.2 h.1
    | cons g2 gs2 =>
      have hrec := ih g (List.cons_ne_nil _ _) (by simp at hfuel ⊢; omega)
        (fun x hx => hplain x (List.mem_cons_of_mem _ hx))
        (fun x hx => hreads x (List.mem_cons_of_mem _ hx))
      simp only [List.map_cons, joinMembers, List.append_assoc, List.cons_append] at hrec ⊢
      have h := hf ',' (joinMembers ((g2.1, g2.2.1) :: List.map (fun f => (f.1, f.2.1)) gs2)
        ++ '\x7d' :: rest) (Or.inl rfl)
      rw [parseMembers_comma pv g f.1 f.2.1 f.2.2 _ hk h.2 h.1, hrec]

theorem encode_length (a : Asset) : ∃ k, (encode a).length = k + 9 := by
  refine ⟨(encode a).length - 9, ?_⟩
  have : 9 ≤ (encode a).length := by
    simp only [encode, encodeFields, joinMembers, List.length_cons, List.length_append, keyColon]
    omega
  omega

theorem parseValue_object (f d : Nat) (k : String) (body : List Char)
    (hd : d < maxNestingDepth) :
    parseValue (f + 1) d ('\x7b' :: (keyColon k ++ body))
      = match parseMembersWith (fun s => parseValue f (d + 1) s) f (keyColon k ++ body) with
        | none => none
        | some (ms, r1) => some (JValue.obj ms, r1) := by
  simp only [parseValue, if_true, hd, keyColon, List.cons_append]
  rw [skipWS_cons _ _ (by decide)]
  simp only [show ('"' : Char) ≠ '\x7d' by decide, if_false]

/-- Parsing the encoded asset gives the object of its fields, in the order written. -/
theorem parseJSON_encode (a : Asset) : parseJSON (encode a) = some (encodedValue a) := by
  obtain ⟨k, hk⟩ := encode_length a
  have hm := parseMembers_join (fun s => parseValue (k + 9) (0 + 1) s) (fieldTexts a) []
    (k + 9) (by simp [fieldTexts]) (by simp [fieldTexts])
    (by
      intro f hf
      simp only [fieldTexts, List.mem_cons, List.mem_singleton, List.not_mem_nil,
        or_false] at hf
      rcases hf with h | h | h | h | h | h | h | h <;> subst h <;> rfl)
    (by
      intro f hf
      simp only [fieldTexts, List.mem_cons, List.mem_singleton, List.not_mem_nil,
        or_false] at hf
      rcases hf with h | h | h | h | h | h | h | h <;> subst h <;>
        first
          | exact reads_formatInt (k + 8) 1 _
          | exact reads_quoteString (k + 8) 1 _)
  have htext : encode a
      = '\x7b' :: (keyColon "DEALERID" ++ (formatInt a.DEALERID ++ ',' ::
          (joinMembers ((fieldTexts a).tail.map (fun f => (f.1, f.2.1))) ++ ['\x7d']))) := by
    simp [encode, encodeFields, joinMembers, fieldTexts, List.append_assoc]
  have hjoin : joinMembers ((fieldTexts a).map (fun f => (f.1, f.2.1))) ++ ['\x7d']
      = keyColon "DEALERID" ++ (formatInt a.DEALERID ++ ',' ::
          (joinMembers ((fieldTexts a).tail.map (fun f => (f.1, f.2.1))) ++ ['\x7d'])) := by
    simp [joinMembers, fieldTexts, List.append_assoc]
  unfold parseJSON
  rw [hk, htext, skipWS_cons _ _ (by decide),
    parseValue_object (k + 9) 0 "DEALERID" _ (by decide), ← hjoin, hm]
  rfl

theorem decodeMembers_encoded (a : Asset) (h : a.IntsValid) :
    decodeMembers
      [("DEALERID", JValue.num (formatInt a.DEALERID)),
       ("MSISDN", JValue.str (String.mk (toValidChars a.MSISDN))),
       ("ID", JValue.str (String.mk (toValidChars a.MPIN))),
       ("BALANCE", JValue.num (formatInt a.BALANCE)),
       ("Status", JValue.str (String.mk (toValidChars a.STATUS))),
       ("TRANSAM", JValue.num (formatInt a.TRANSAMOUNT)),
       ("TRANS", JValue.str (String.mk (toValidChars a.TRANSTYPE))),
       ("REMARKS", JValue.str (String.mk (toValidChars a.REMARKS)))] Asset.zero
      = some a.sanitized := by
  obtain ⟨h1, h2, h3⟩ := h
  have f1 : findField "DEALERID" = some Field.DEALERID := rfl
  have f2 : findField "MSISDN" = some Field.MSISDN := rfl
  have f3 : findField "ID" = some Field.MPIN := rfl
  have f4 : findField "BALANCE" = some Field.BALANCE := rfl
  have f5 : findField "Status" = some Field.STATUS := rfl
  have f6 : findField "TRANSAM" = some Field.TRANSAMOUNT := rfl
  have f7 : findField "TRANS" = some Field.TRANSTYPE := rfl
  have f8 : findField "REMARKS" = some Field.REMARKS := rfl
  simp only [decodeMembers, f1, f2, f3, f4, f5, f6, f7, f8, setField, storeInt, storeString,
    parseInt_formatInt _ h1, parseInt_formatInt _ h2, parseInt_formatInt _ h3, Option.map_some']
  rfl

/-- Decoding the encoding of an asset whose integers are values of `int` gives the asset
with every string made well-formed: each byte that starts no encoding comes back as the
three bytes of U+FFFD. -/
theorem decode_encode_sanitized (a : Asset) (h : a.IntsValid) :
    decode (encode a) = .ok a.sanitized := by
  unfold decode Unmarshal
  rw [parseJSON_encode]
  simp only [encodedValue, decodeMembers_encoded a h]

theorem sanitized_of_valid (a : Asset) (h : a.StringsValid) : a.sanitized = a := by
  obtain ⟨s1, s2, s3, s4, s5⟩ := h
  simp only [Asset.sanitized, toValidUTF8_of_valid _ s1, toValidUTF8_of_valid _ s2,
    toValidUTF8_of_valid _ s3, toValidUTF8_of_valid _ s4, toValidUTF8_of_valid _ s5]

theorem sanitized_valid (a : Asset) (h : a.IntsValid) : a.sanitized.Valid :=
  ⟨h, validUTF8_toValidUTF8 _, validUTF8_toValidUTF8 _, validUTF8_toValidUTF8 _,
    validUTF8_toValidUTF8 _, validUTF8_toValidUTF8 _⟩

/-- Decoding the encoding of a valid asset gives the asset back. -/
theorem decode_encode (a : Asset) (h : a.Valid) : decode (encode a) = .ok a := by
  rw [decode_encode_sanitized a h.1, sanitized_of_valid a h.2]

theorem storeInt_range (v : JValue) (old n : Int) (hold : IsGoInt old)
    (h : storeInt v old = some n) : IsGoInt n := by
  cases v with
  | null => simp only [storeInt, Option.some.injEq] at h; exact h ▸ hold
  | num lit => exact parseInt_range lit n h
  | bool b => simp [storeInt] at h
  | str s => simp [storeInt] at h
  | arr xs => simp [storeInt] at h
  | obj ms => simp [storeInt] at h

theorem storeString_valid (v : JValue) (old n : GoString) (hold : validUTF8 old = true)
    (h : storeString v old = some n) : validUTF8 n = true := by
  cases v with
  | null => simp only [storeString, Option.some.injEq] at h; exact h ▸ hold
  | str s => simp only [storeString, Option.some.injEq] at h; exact h ▸ validUTF8_utf8 _
  | num lit => simp [storeString] at h
  | bool b => simp [storeString] at h
  | arr xs => simp [storeString] at h
  | obj ms => simp [storeString] at h

theorem setField_valid (a b : Asset) (f : Field) (v : JValue) (ha : a.Valid)
    (h : setField a f v = some b) : b.Valid := by
  obtain ⟨⟨h1, h2, h3⟩, s1, s2, s3, s4, s5⟩ := ha
  cases f <;> simp only [setField, Option.map_eq_some'] at h <;> obtain ⟨x, hx, rfl⟩ := h
  · exact ⟨⟨storeInt_range _ _ _ h1 hx, h2, h3⟩, s1, s2, s3, s4, s5⟩
  · exact ⟨⟨h1, h2, h3⟩, storeString_valid _ _ _ s1 hx, s2, s3, s4, s5⟩
  · exact ⟨⟨h1, h2, h3⟩, s1, storeString_valid _ _ _ s2 hx, s3, s4, s5⟩
  · exact ⟨⟨h1, storeInt_range _ _ _ h2 hx, h3⟩, s1, s2, s3, s4, s5⟩
  · exact ⟨⟨h1, h2, h3⟩, s1, s2, storeString_valid _ _ _ s3 hx, s4, s5⟩
  · exact ⟨⟨h1, h2, storeInt_range _ _ _ h3 hx⟩, s1, s2, s3, s4, s5⟩
  · exact ⟨⟨h1, h2, h3⟩, s1, s2, s3, storeString_valid _ _ _ s4 hx, s5⟩
  · exact ⟨⟨h1, h2, h3⟩, s1, s2, s3, s4, storeString_valid _ _ _ s5 hx⟩

theorem decodeMembers_valid (ms : List (String × JValue)) (a b : Asset) (ha : a.Valid)
    (h : decodeMembers ms a = some b) : b.Valid := by
  induction ms generalizing a with
  | nil =>
    simp only [decodeMembers, Option.some.injEq] at h
    exact h ▸ ha
  | cons m ms ih =>
    obtain ⟨k, v⟩ := m
    simp only [decodeMembers] at h
    split at h
    · exact ih a ha h
    · split at h
      · exact Option.noConfusion h
      · rename_i a1 hset
        exact ih a1 (setField_valid a a1 _ v ha hset) h

/-- Every asset the decoder returns has its integer fields in the range of `int` and its
string fields well-formed UTF-8. -/
theorem decode_valid (data : Payload) (a : Asset) (h : decode data = .ok a) : a.Valid := by
  have hz : Asset.zero.Valid := by decide
  unfold decode Unmarshal at h
  split at h
  · exact Except.noConfusion h
  · simp only [Except.ok.injEq] at h
    exact h ▸ hz
  · split at h
    · exact Except.noConfusion h
    · rename_i b hb
      simp only [Except.ok.injEq] at h
      exact h ▸ decodeMembers_valid _ _ b hz hb
  · exact Except.noConfusion h

theorem unmarshal_error (p : Payload) (a : Asset) (e : Err) (h : Unmarshal p a = .error e) :
    e = Err.decode := by
  unfold Unmarshal at h
  split at h
  · exact (Except.error.inj h).symm
  · exact Except.noConfusion h
  · split at h
    · exact (Except.error.inj h).symm
    · exact Except.noConfusion h
  · exact (Except.error.inj h).symm

theorem decodes_ok (p : Payload) (h : decodes p = true) :
    ∃ a, Unmarshal p Asset.zero = .ok a := by
  unfold decodes at h
  cases hd : Unmarshal p Asset.zero with
  | ok a => exact ⟨a, rfl⟩
  | error e => rw [hd] at h; exact Bool.noConfusion h

theorem decodeAll_ok (ps : List Payload)
    (h : ∀ p ∈ ps, ∃ a, Unmarshal p Asset.zero = .ok a) :
    ∃ assets, decodeAll ps = .ok assets ∧
      List.Forall₂ (fun p a => Unmarshal p Asset.zero = .ok a) ps assets := by
  induction ps with
  | nil => exact ⟨[], rfl, List.Forall₂.nil⟩
  | cons p ps ih =>
    obtain ⟨a, ha⟩ := h p (List.mem_cons_self _ _)
    obtain ⟨as, has, hall⟩ := ih (fun q hq => h q (List.mem_cons_of_mem _ hq))
    exact ⟨a :: as, by simp only [decodeAll, ha, has], List.Forall₂.cons ha hall⟩

theorem decodeAll_error (ps : List Payload)
    (h : ∃ p ∈ ps, ∀ a, Unmarshal p Asset.zero ≠ .ok a) :
    decodeAll ps = .error Err.decode := by
  induction ps with
  | nil =>
    obtain ⟨p, hp, _⟩ := h
    exact absurd hp (List.not_mem_nil _)
  | cons q qs ih =>
    simp only [decodeAll]
    cases hq : Unmarshal q Asset.zero with
    | error e => simp only [unmarshal_error q _ e hq]
    | ok a =>
      obtain ⟨p, hp, hbad⟩ := h
      rcases List.mem_cons.mp hp with hpq | hpq
      · subst hpq
        exact absurd hq (hbad a)
      · rw [ih ⟨p, hpq, hbad⟩]

/-! ## The parser does not depend on its fuel -/

theorem skipWS_length (cs : List Char) : (skipWS cs).length ≤ cs.length := by
  induction cs with
  | nil => simp [skipWS]
  | cons c cs ih =>
    simp only [skipWS]
    split
    · simp only [List.length_cons]; omega
    · exact Nat.le_refl _

theorem skipWS_cons_length (cs : List Char) (c : Char) (t : List Char)
    (h : skipWS cs = c :: t) : t.length < cs.length := by
  have := skipWS_length cs
  rw [h] at this
  simp only [List.length_cons] at this
  omega

theorem strStep_stop_length (cs rest : List Char) (h : strStep cs = StrStep.stop rest) :
    rest.length < cs.length := by
  match cs, h with
  | [], h => simp [strStep] at h
  | x :: xs, h =>
    simp only [strStep] at h
    split at h
    · simp only [StrStep.stop.injEq] at h
      rw [← h]
      simp
    · split at h
      · match xs, h with
        | [], h => exact StrStep.noConfusion h
        | e :: cs1, h =>
          simp only at h
          split at h
          · match cs1, h with
            | h1 :: h2 :: h3 :: h4 :: cs2, h =>
              simp only [escapeU] at h
              repeat' split at h
              all_goals first | exact StrStep.noConfusion h
            | [], h => simp [escapeU] at h
            | [_], h => simp [escapeU] at h
            | [_, _], h => simp [escapeU] at h
            | [_, _, _], h => simp [escapeU] at h
          · split at h <;> exact StrStep.noConfusion h
      · split at h <;> exact StrStep.noConfusion h

theorem scanStringFuel_length (f : Nat) (cs s rest : List Char)
    (h : scanStringFuel f cs = some (s, rest)) : rest.length < cs.length := by
  induction f generalizing cs s with
  | zero => simp [scanStringFuel] at h
  | succ f ih =>
    simp only [scanStringFuel] at h
    cases hstep : strStep cs with
    | bad => rw [hstep] at h; exact Option.noConfusion h
    | stop r =>
      rw [hstep] at h
      simp only [Option.some.injEq, Prod.mk.injEq] at h
      rw [← h.2]
      exact strStep_stop_length cs r hstep
    | emit c r =>
      rw [hstep] at h
      simp only at h
      have hlen := strStep_length cs r c hstep
      cases hrec : scanStringFuel f r with
      | none => rw [hrec] at h; exact Option.noConfusion h
      | some p =>
        obtain ⟨s2, rest2⟩ := p
        rw [hrec] at h
        simp only [consChar, Option.some.injEq, Prod.mk.injEq] at h
        have := ih r s2 (h.2 ▸ hrec)
        omega

theorem scanString_length (cs s rest : List Char) (h : scanString cs = some (s, rest)) :
    rest.length < cs.length :=
  scanStringFuel_length _ cs s rest h

theorem spanDigits_length (cs : List Char) : (spanDigits cs).2.length ≤ cs.length := by
  induction cs with
  | nil => simp [spanDigits]
  | cons c cs ih =>
    simp only [spanDigits]
    split
    · simp only [List.length_cons]; omega
    · exact Nat.le_refl _

theorem scanUnsigned_length (cs lit rest : List Char)
    (h : scanUnsigned cs = some (lit, rest)) : rest.length < cs.length := by
  unfold scanUnsigned at h
  cases hi : scanIntPart cs with
  | none => rw [hi] at h; exact Option.noConfusion h
  | some p1 =>
    obtain ⟨ip, r1⟩ := p1
    rw [hi] at h
    simp only at h
    have h1 : r1.length < cs.length := by
      match cs, hi with
      | [], hi => simp [scanIntPart] at hi
      | c :: t, hi =>
        simp only [scanIntPart] at hi
        split at hi
        · simp only [Option.some.injEq, Prod.mk.injEq] at hi
          rw [← hi.2]
          simp
        · split at hi
          · simp only [Option.some.injEq, Prod.mk.injEq] at hi
            rw [← hi.2]
            have := spanDigits_length t
            simp only [List.length_cons]
            omega
          · exact Option.noConfusion hi
    cases hf : scanFrac r1 with
    | none => rw [hf] at h; exact Option.noConfusion h
    | some p2 =>
      obtain ⟨fp, r2⟩ := p2
      rw [hf] at h
      simp only at h
      have h2 : r2.length ≤ r1.length := by
        match r1, hf with
        | [], hf =>
          simp only [scanFrac, Option.some.injEq, Prod.mk.injEq] at hf
          rw [← hf.2]
        | c :: t, hf =>
          simp only [scanFrac] at hf
          split at hf
          · split at hf
            · exact Option.noConfusion hf
            · simp only [Option.some.injEq, Prod.mk.injEq] at hf
              rw [← hf.2]
              have := spanDigits_length t
              simp only [List.length_cons]
              omega
          · simp only [Option.some.injEq, Prod.mk.injEq] at hf
            rw [← hf.2]
      cases he : scanExp r2 with
      | none => rw [he] at h; exact Option.noConfusion h
      | some p3 =>
        obtain ⟨ep, r3⟩ := p3
        rw [he] at h
        simp only [Option.some.injEq, Prod.mk.injEq] at h
        have h3 : r3.length ≤ r2.length := by
          match r2, he with
          | [], he =>
            simp only [scanExp, Option.some.injEq, Prod.mk.injEq] at he
            rw [← he.2]
          | c :: t, he =>
            simp only [scanExp] at he
            split at he
            · match t, he with
              | [], he => exact Option.noConfusion he
              | s :: t1, he =>
                simp only at he
                split at he
                · simp only [scanExpDigits] at he
                  split at he
                  · exact Option.noConfusion he
                  · simp only [Option.some.injEq, Prod.mk.injEq] at he
                    rw [← he.2]
                    have := spanDigits_length t1
                    simp only [List.length_cons]
                    omega
                · simp only [scanExpDigits] at he
                  split at he
                  · exact Option.noConfusion he
                  · simp only [Option.some.injEq, Prod.mk.injEq] at he
                    rw [← he.2]
                    have := spanDigits_length (s :: t1)
                    simp only [List.length_cons] at this ⊢
                    omega
            · simp only [Option.some.injEq, Prod.mk.injEq] at he
              rw [← he.2]
        rw [← h.2]
        omega

theorem scanNumber_length (cs lit rest : List Char)
    (h : scanNumber cs = some (lit, rest)) : rest.length < cs.length := by
  match cs, h with
  | [], h => simp [scanNumber] at h
  | c :: t, h =>
    simp only [scanNumber] at h
    split at h
    · cases hu : scanUnsigned t with
      | none => rw [hu] at h; exact Option.noConfusion h
      | some p =>
        obtain ⟨l, r⟩ := p
        rw [hu] at h
        simp only [Option.some.injEq, Prod.mk.injEq] at h
        have := scanUnsigned_length t l r hu
        rw [← h.2]
        simp only [List.length_cons]
        omega
    · exact scanUnsigned_length _ _ _ h

theorem stripWord_length (w cs rest : List Char) (hw : w ≠ [])
    (h : stripWord w cs = some rest) : rest.length < cs.length := by
  induction w generalizing cs with
  | nil => exact absurd rfl hw
  | cons x xs ih =>
    match cs, h with
    | [], h => simp [stripWord] at h
    | c :: t, h =>
      simp only [stripWord] at h
      split at h
      · cases xs with
        | nil =>
          simp only [stripWord, Option.some.injEq] at h
          rw [← h]
          simp
        | cons y ys =>
          have := ih t (List.cons_ne_nil _ _) h
          simp only [List.length_cons]
          omega
      · exact Option.noConfusion h

theorem scanLiteral_length (cs rest : List Char) (v : JValue)
    (h : scanLiteral cs = some (v, rest)) : rest.length < cs.length := by
  unfold scanLiteral at h
  split at h
  · rename_i r hr
    simp only [Option.some.injEq, Prod.mk.injEq] at h
    rw [← h.2]
    exact stripWord_length _ _ _ (List.cons_ne_nil _ _) hr
  · split at h
    · rename_i r hr
      simp only [Option.some.injEq, Prod.mk.injEq] at h
      rw [← h.2]
      exact stripWord_length _ _ _ (List.cons_ne_nil _ _) hr
    · split at h
      · rename_i r hr
        simp only [Option.some.injEq, Prod.mk.injEq] at h
        rw [← h.2]
        exact stripWord_length _ _ _ (List.cons_ne_nil _ _) hr
      · exact Option.noConfusion h

theorem parseMembersWith_length (pv : List Char → Option (JValue × List Char))
    (hshr : ∀ ys v rest, pv ys = some (v, rest) → rest.length < ys.length)
    (g : Nat) (xs : List Char) (ms : List (String × JValue)) (rest : List Char)
    (h : parseMembersWith pv g xs = some (ms, rest)) : rest.length < xs.length := by
  induction g generalizing xs ms with
  | zero => simp [parseMembersWith] at h
  | succ g ih =>
    simp only [parseMembersWith] at h
    cases hws : skipWS xs with
    | nil => rw [hws] at h; exact Option.noConfusion h
    | cons q t =>
      rw [hws] at h
      simp only at h
      have l1 := skipWS_cons_length xs q t hws
      split at h
      · cases hk : scanString t with
        | none => rw [hk] at h; exact Option.noConfusion h
        | some p =>
          obtain ⟨k, r1⟩ := p
          rw [hk] at h
          simp only at h
          have l2 := scanString_length t k r1 hk
          cases hws1 : skipWS r1 with
          | nil => rw [hws1] at h; exact Option.noConfusion h
          | cons c1 r2 =>
            rw [hws1] at h
            simp only at h
            have l3 := skipWS_cons_length r1 c1 r2 hws1
            split at h
            · cases hv : pv (skipWS r2) with
              | none => rw [hv] at h; exact Option.noConfusion h
              | some p2 =>
                obtain ⟨v, r3⟩ := p2
                rw [hv] at h
                simp only at h
                have l4 := hshr _ _ _ hv
                have l5 := skipWS_length r2
                cases hws3 : skipWS r3 with
                | nil => rw [hws3] at h; exact Option.noConfusion h
                | cons c2 r4 =>
                  rw [hws3] at h
                  simp only at h
                  have l6 := skipWS_cons_length r3 c2 r4 hws3
                  split at h
                  · cases hrec : parseMembersWith pv g r4 with
                    | none => rw [hrec] at h; exact Option.noConfusion h
                    | some p3 =>
                      obtain ⟨ms2, r5⟩ := p3
                      rw [hrec] at h
                      simp only [Option.some.injEq, Prod.mk.injEq] at h
                      have l7 := ih r4 ms2 (h.2 ▸ hrec)
                      omega
                  · split at h
                    · simp only [Option.some.injEq, Prod.mk.injEq] at h
                      rw [← h.2]
                      omega
                    · exact Option.noConfusion h
            · exact Option.noConfusion h
      · exact Option.noConfusion h

theorem parseElementsWith_length (pv : List Char → Option (JValue × List Char))
    (hshr : ∀ ys v rest, pv ys = some (v, rest) → rest.length < ys.length)
    (g : Nat) (xs : List Char) (vs : List JValue) (rest : List Char)
    (h : parseElementsWith pv g xs = some (vs, rest)) : rest.length < xs.length := by
  induction g generalizing xs vs with
  | zero => simp [parseElementsWith] at h
  | succ g ih =>
    simp only [parseElementsWith] at h
    cases hv : pv (skipWS xs) with
    | none => rw [hv] at h; exact Option.noConfusion h
    | some p =>
      obtain ⟨v, r1⟩ := p
      rw [hv] at h
      simp only at h
      have l1 := hshr _ _ _ hv
      have l2 := skipWS_length xs
      cases hws : skipWS r1 with
      | nil => rw [hws] at h; exact Option.noConfusion h
      | cons c r2 =>
        rw [hws] at h
        simp only at h
        have l3 := skipWS_cons_length r1 c r2 hws
        split at h
        · cases hrec : parseElementsWith pv g r2 with
          | none => rw [hrec] at h; exact Option.noConfusion h
          | some p3 =>
            obtain ⟨vs2, r3⟩ := p3
            rw [hrec] at h
            simp only [Option.some.injEq, Prod.mk.injEq] at h
            have l4 := ih r2 vs2 (h.2 ▸ hrec)
            omega
        · split at h
          · simp only [Option.some.injEq, Prod.mk.injEq] at h
            rw [← h.2]
            omega
          · exact Option.noConfusion h

/-- Whatever the fuel, a value the parser returns was read from the head of the input:
what is left is shorter than the input. -/
theorem parseValue_length (f d : Nat) (cs : List Char) (v : JValue) (rest : List Char)
    (h : parseValue f d cs = some (v, rest)) : rest.length < cs.length := by
  induction f generalizing d cs v rest with
  | zero => simp [parseValue] at h
  | succ f ih =>
    match cs, h with
    | [], h => simp [parseValue] at h
    | c :: t, h =>
      simp only [parseValue] at h
      split at h
      · split at h
        · cases hws : skipWS t with
          | nil => rw [hws] at h; exact Option.noConfusion h
          | cons c1 r =>
            rw [hws] at h
            simp only at h
            have l1 := skipWS_cons_length t c1 r hws
            split at h
            · simp only [Option.some.injEq, Prod.mk.injEq] at h
              rw [← h.2]
              simp only [List.length_cons]
              omega
            · cases hm : parseMembersWith (fun s => parseValue f (d + 1) s) f (c1 :: r) with
              | none => rw [hm] at h; exact Option.noConfusion h
              | some p =>
                obtain ⟨ms, r1⟩ := p
                rw [hm] at h
                simp only [Option.some.injEq, Prod.mk.injEq] at h
                have l2 := parseMembersWith_length _ (fun ys v rest hy => ih (d + 1) ys v rest hy)
                  f (c1 :: r) ms r1 hm
                rw [← h.2]
                simp only [List.length_cons] at l2 ⊢
                omega
        · exact Option.noConfusion h
      · split at h
        · split at h
          · cases hws : skipWS t with
            | nil => rw [hws] at h; exact Option.noConfusion h
            | cons c1 r =>
              rw [hws] at h
              simp only at h
              have l1 := skipWS_cons_length t c1 r hws
              split at h
              · simp only [Option.some.injEq, Prod.mk.injEq] at h
                rw [← h.2]
                simp only [List.length_cons]
                omega
              · cases hm : parseElementsWith (fun s => parseValue f (d + 1) s) f (c1 :: r) with
                | none => rw [hm] at h; exact Option.noConfusion h
                | some p =>
                  obtain ⟨ms, r1⟩ := p
                  rw [hm] at h
                  simp only [Option.some.injEq, Prod.mk.injEq] at h
                  have l2 := parseElementsWith_length _
                    (fun ys v rest hy => ih (d + 1) ys v rest hy) f (c1 :: r) ms r1 hm
                  rw [← h.2]
                  simp only [List.length_cons] at l2 ⊢
                  omega
          · exact Option.noConfusion h
        · split at h
          · cases hk : scanString t with
            | none => rw [hk] at h; exact Option.noConfusion h
            | some p =>
              obtain ⟨k, r1⟩ := p
              rw [hk] at h
              simp only [Option.some.injEq, Prod.mk.injEq] at h
              have := scanString_length t k r1 hk
              rw [← h.2]
              simp only [List.length_cons]
              omega
          · split at h
            · cases hn : scanNumber (c :: t) with
              | none => rw [hn] at h; exact Option.noConfusion h
              | some p =>
                obtain ⟨lit, r1⟩ := p
                rw [hn] at h
                simp only [Option.some.injEq, Prod.mk.injEq] at h
                have := scanNumber_length _ lit r1 hn
                rw [← h.2]
                exact this
            · exact scanLiteral_length _ _ _ h

theorem parseMembersWith_nil (pv : List Char → Option (JValue × List Char)) (g : Nat) :
    parseMembersWith pv g [] = none := by
  cases g <;> simp [parseMembersWith, skipWS]

theorem parseElementsWith_zero_length (pv : List Char → Option (JValue × List Char))
    (hpv : pv [] = none) (g : Nat) : parseElementsWith pv g [] = none := by
  cases g <;> simp [parseElementsWith, skipWS, hpv]

theorem parseMembersWith_congr (pv1 pv2 : List Char → Option (JValue × List Char))
    (n : Nat) (hpv : ∀ ys, ys.length < n → pv1 ys = pv2 ys)
    (hshr : ∀ ys v rest, pv1 ys = some (v, rest) → rest.length < ys.length)
    (g1 g2 : Nat) (xs : List Char) (hn : xs.length ≤ n) (h1 : xs.length ≤ g1)
    (h2 : xs.length ≤ g2) :
    parseMembersWith pv1 g1 xs = parseMembersWith pv2 g2 xs := by
  induction g1 generalizing g2 xs with
  | zero =>
    have : xs = [] := List.length_eq_zero.mp (by omega)
    subst this
    rw [parseMembersWith_nil, parseMembersWith_nil]
  | succ g ih =>
    cases g2 with
    | zero =>
      have : xs = [] := List.length_eq_zero.mp (by omega)
      subst this
      rw [parseMembersWith_nil, parseMembersWith_nil]
    | succ g' =>
      simp only [parseMembersWith]
      cases hws : skipWS xs with
      | nil => rfl
      | cons q t =>
        simp only
        have l1 := skipWS_cons_length xs q t hws
        split
        · cases hk : scanString t with
          | none => rfl
          | some p =>
            obtain ⟨k, r1⟩ := p
            simp only
            have l2 := scanString_length t k r1 hk
            cases hws1 : skipWS r1 with
            | nil => rfl
            | cons c1 r2 =>
              simp only
              have l3 := skipWS_cons_length r1 c1 r2 hws1
              split
              · have l5 := skipWS_length r2
                rw [← hpv (skipWS r2) (by omega)]
                cases hv : pv1 (skipWS r2) with
                | none => rfl
                | some p2 =>
                  obtain ⟨v, r3⟩ := p2
                  simp only
                  have l4 := hshr _ _ _ hv
                  cases hws3 : skipWS r3 with
                  | nil => rfl
                  | cons c2 r4 =>
                    simp only
                    have l6 := skipWS_cons_length r3 c2 r4 hws3
                    split
                    · rw [ih g' r4 (by omega) (by omega) (by omega)]
                    · rfl
              · rfl
        · rfl

theorem parseElementsWith_congr (pv1 pv2 : List Char → Option (JValue × List Char))
    (n : Nat) (hpv : ∀ ys, ys.length < n → pv1 ys = pv2 ys)
    (hnil1 : pv1 [] = none) (hnil2 : pv2 [] = none)
    (hshr : ∀ ys v rest, pv1 ys = some (v, rest) → rest.length < ys.length)
    (g1 g2 : Nat) (xs : List Char) (hn : xs.length < n) (h1 : xs.length ≤ g1)
    (h2 : xs.length ≤ g2) :
    parseElementsWith pv1 g1 xs = parseElementsWith pv2 g2 xs := by
  induction g1 generalizing g2 xs with
  | zero =>
    have : xs = [] := List.length_eq_zero.mp (by omega)
    subst this
    rw [parseElementsWith_zero_length pv1 hnil1, parseElementsWith_zero_length pv2 hnil2]
  | succ g ih =>
    cases g2 with
    | zero =>
      have : xs = [] := List.length_eq_zero.mp (by omega)
      subst this
      rw [parseElementsWith_zero_length pv1 hnil1, parseElementsWith_zero_length pv2 hnil2]
    | succ g' =>
      simp only [parseElementsWith]
      have l2 := skipWS_length xs
      rw [← hpv (skipWS xs) (by omega)]
      cases hv : pv1 (skipWS xs) with
      | none => rfl
      | some p =>
        obtain ⟨v, r1⟩ := p
        simp only
        have l1 := hshr _ _ _ hv
        cases hws : skipWS r1 with
        | nil => rfl
        | cons c r2 =>
          simp only
          have l3 := skipWS_cons_length r1 c r2 hws
          split
          · rw [ih g' r2 (by omega) (by omega) (by omega)]
          · rfl

theorem parseValue_nil (f d : Nat) : parseValue f d [] = none := by
  cases f <;> simp [parseValue]

/-- The value parser does not depend on its fuel once the fuel exceeds the length of the
input: the fuel `parseJSON` gives it is enough for every input. -/
theorem parseValue_fuel (f1 f2 d : Nat) (cs : List Char)
    (h1 : cs.length < f1) (h2 : cs.length < f2) :
    parseValue f1 d cs = parseValue f2 d cs := by
  induction f1 generalizing f2 d cs with
  | zero => omega
  | succ f ih =>
    cases f2 with
    | zero => omega
    | succ f' =>
      match cs, h1, h2 with
      | [], _, _ => simp [parseValue]
      | c :: t, h1, h2 =>
        simp only [List.length_cons] at h1 h2
        simp only [parseValue]
        split
        · split
          · cases hws : skipWS t with
            | nil => rfl
            | cons c1 r =>
              simp only
              have l1 := skipWS_length t
              rw [hws] at l1
              split
              · rfl
              · rw [parseMembersWith_congr (fun s => parseValue f (d + 1) s)
                  (fun s => parseValue f' (d + 1) s) (c1 :: r).length
                  (fun ys hy => ih f' (d + 1) ys (by omega) (by omega))
                  (fun ys v rest hy => parseValue_length f (d + 1) ys v rest hy)
                  f f' (c1 :: r) (Nat.le_refl _) (by omega) (by omega)]
          · rfl
        · split
          · split
            · cases hws : skipWS t with
              | nil => rfl
              | cons c1 r =>
                simp only
                have l1 := skipWS_length t
                rw [hws] at l1
                split
                · rfl
                · rw [parseElementsWith_congr (fun s => parseValue f (d + 1) s)
                    (fun s => parseValue f' (d + 1) s) ((c1 :: r).length + 1)
                    (fun ys hy => ih f' (d + 1) ys (by omega) (by omega))
                    (parseValue_nil f (d + 1)) (parseValue_nil f' (d + 1))
                    (fun ys v rest hy => parseValue_length f (d + 1) ys v rest hy)
                    f f' (c1 :: r) (Nat.lt_succ_self _) (by omega) (by omega)]
            · rfl
          · rfl

/-! ## The world state -/

theorem lookupWorld_putWorld_same (k : String) (v : Payload) (w : List (String × Payload)) :
    lookupWorld k (putWorld k v w) = some v := by
  induction w with
  | nil => simp [putWorld, lookupWorld]
  | cons e w ih =>
    obtain ⟨k1, v1⟩ := e
    simp only [putWorld]
    split
    · simp [lookupWorld]
    · rename_i hne
      split
      · simp [lookupWorld]
      · simp [lookupWorld, hne, ih]

theorem lookupWorld_putWorld_other (k k2 : String) (v : Payload) (w : List (String × Payload))
    (h : k2 ≠ k) : lookupWorld k2 (putWorld k v w) = lookupWorld k2 w := by
  induction w with
  | nil => simp [putWorld, lookupWorld, h]
  | cons e w ih =>
    obtain ⟨k1, v1⟩ := e
    simp only [putWorld]
    split
    · rename_i heq
      subst heq
      simp [lookupWorld, h]
    · split
      · simp [lookupWorld, h]
      · simp only [lookupWorld, ih]

theorem mem_putWorld (k : String) (v : Payload) (w : List (String × Payload))
    (e : String × Payload) (h : e ∈ putWorld k v w) : e = (k, v) ∨ e ∈ w := by
  induction w with
  | nil =>
    simp only [putWorld, List.mem_singleton] at h
    exact Or.inl h
  | cons e1 w ih =>
    obtain ⟨k1, v1⟩ := e1
    simp only [putWorld] at h
    split at h
    · rcases List.mem_cons.mp h with h | h
      · exact Or.inl h
      · exact Or.inr (List.mem_cons_of_mem _ h)
    · split at h
      · rcases List.mem_cons.mp h with h | h
        · exact Or.inl h
        · exact Or.inr h
      · rcases List.mem_cons.mp h with h | h
        · exact Or.inr (h ▸ List.mem_cons_self _ _)
        · rcases ih h with h | h
          · exact Or.inl h
          · exact Or.inr (List.mem_cons_of_mem _ h)

theorem lookupWorld_mem (k : String) (v : Payload) (w : List (String × Payload))
    (h : lookupWorld k w = some v) : (k, v) ∈ w := by
  induction w with
  | nil => simp [lookupWorld] at h
  | cons e w ih =>
    obtain ⟨k1, v1⟩ := e
    simp only [lookupWorld] at h
    split at h
    · rename_i hk
      simp only [Option.some.injEq] at h
      subst hk
      subst h
      exact List.mem_cons_self _ _
    · exact List.mem_cons_of_mem _ (ih h)

theorem keyLt_trans (a b c : List Char) (hab : keyLt a b = true) (hbc : keyLt b c = true) :
    keyLt a c = true := by
  induction a generalizing b c with
  | nil =>
    cases b with
    | nil => simp [keyLt] at hab
    | cons y ys =>
      cases c with
      | nil => simp [keyLt] at hbc
      | cons z zs => simp [keyLt]
  | cons x xs ih =>
    cases b with
    | nil => simp [keyLt] at hab
    | cons y ys =>
      cases c with
      | nil => simp [keyLt] at hbc
      | cons z zs =>
        simp only [keyLt, Bool.or_eq_true, decide_eq_true_eq, Bool.and_eq_true] at hab hbc ⊢
        rcases hab with hab | ⟨hxy, hab⟩
        · rcases hbc with hbc | ⟨hyz, hbc⟩
          · exact Or.inl (by omega)
          · subst hyz
            exact Or.inl hab
        · subst hxy
          rcases hbc with hbc | ⟨hyz, hbc⟩
          · exact Or.inl hbc
          · exact Or.inr ⟨hyz, ih ys zs hab hbc⟩

theorem keyLt_total (a b : List Char) (hab : keyLt a b = false) (hne : a ≠ b) :
    keyLt b a = true := by
  induction a generalizing b with
  | nil =>
    cases b with
    | nil => exact absurd rfl hne
    | cons y ys => simp [keyLt] at hab
  | cons x xs ih =>
    cases b with
    | nil => simp [keyLt]
    | cons y ys =>
      simp only [keyLt, Bool.or_eq_false_iff, decide_eq_false_iff_not, Bool.and_eq_false_imp,
        decide_eq_true_eq] at hab
      simp only [keyLt, Bool.or_eq_true, decide_eq_true_eq, Bool.and_eq_true]
      by_cases hxy : x = y
      · subst hxy
        exact Or.inr ⟨rfl, ih ys (hab.2 rfl) (fun h => hne (by rw [h]))⟩
      · left
        have : x.toNat ≠ y.toNat := fun h => hxy (by
          have := congrArg Char.ofNat h
          rwa [Char.ofNat_toNat, Char.ofNat_toNat] at this)
        omega

/-- Writing a key keeps the world state in key order. -/
theorem sorted_putWorld (k : String) (v : Payload) (w : List (String × Payload))
    (h : Sorted w) : Sorted (putWorld k v w) := by
  induction w with
  | nil => simp [putWorld, Sorted]
  | cons e w ih =>
    obtain ⟨k1, v1⟩ := e
    unfold Sorted at h ih ⊢
    rw [List.pairwise_cons] at h
    simp only [putWorld]
    split
    · rename_i hk
      subst hk
      rw [List.pairwise_cons]
      exact ⟨h.1, h.2⟩
    · rename_i hk
      split
      · rename_i hlt
        rw [List.pairwise_cons]
        refine ⟨?_, List.pairwise_cons.mpr h⟩
        intro e he
        rcases List.mem_cons.mp he with he | he
        · subst he
          exact hlt
        · exact keyLt_trans _ _ _ hlt (h.1 e he)
      · rename_i hlt
        rw [List.pairwise_cons]
        refine ⟨?_, ih h.2⟩
        intro e he
        rcases mem_putWorld k v w e he with he | he
        · subst he
          have hne : k.data ≠ k1.data := fun hd => hk (String.ext hd)
          exact keyLt_total _ _ (by simpa using hlt) hne
        · exact h.1 e he

theorem sorted_putState (s : Stub) (k : String) (v : Payload) (h : Sorted s.world) :
    Sorted (s.PutState k v).2.world := by
  unfold Stub.PutState
  split
  · exact h
  · exact sorted_putWorld k v s.world h

theorem sorted_initLoop (assets : List Asset) (s : Stub) (h : Sorted s.world) :
    Sorted (initLoop assets s).2.world := by
  induction assets generalizing s with
  | nil => exact h
  | cons a rest ih =>
    have hput := sorted_putState s (Itoa a.DEALERID) (encode a) h
    simp only [initLoop, Marshal]
    cases hp : s.PutState (Itoa a.DEALERID) (encode a) with
    | mk res s1 =>
      rw [hp] at hput
      cases res with
      | error e => exact hput
      | ok u => exact ih s1 hput

/-- On every reachable ledger the world state stands in key order, so a range scan yields
its entries in the lexicographic order of their keys. -/
theorem reachable_sorted (s : Stub) (h : Reachable s) : Sorted s.world := by
  induction h with
  | empty s hs =>
    rw [hs]
    exact List.Pairwise.nil
  | seed s _ ih => exact sorted_initLoop seedAssets s ih
  | create s dealerID msisdn mpin balance transAmount status transType remarks _ _ _ _ ih =>
    simp only [CreateAsset, Marshal]
    exact sorted_putState s _ _ ih
  | update s dealerID msisdn mpin balance transAmount status transType remarks _ _ _ ih =>
    simp only [UpdateAsset, Marshal]
    cases s.GetState (Itoa dealerID) with
    | error e => exact ih
    | ok r =>
      cases r with
      | none => exact ih
      | some b =>
        simp only
        cases Unmarshal b Asset.zero with
        | error e => exact ih
        | ok old => exact sorted_putState s _ _ ih
  | env s t _ hst ih =>
    rw [hst]
    exact ih

theorem getState_ok_fault (s : Stub) (k : String) (r : Option Payload)
    (h : s.GetState k = .ok r) : s.getFault k = false ∧ lookupWorld k s.world = r := by
  unfold Stub.GetState at h
  split at h
  · exact Except.noConfusion h
  · rename_i hf
    simp only [Except.ok.injEq] at h
    exact ⟨by simpa using hf, h⟩

/-- Reading a key right after a successful write of an encoded asset gives the asset with
its strings made well-formed. -/
theorem read_after_put_sanitized (s : Stub) (dealerID : Int) (a : Asset) (ha : a.IntsValid)
    (hget : s.getFault (Itoa dealerID) = false) :
    ReadAsset { s with world := putWorld (Itoa dealerID) (encode a) s.world } dealerID
      = .ok a.sanitized := by
  have hd : Unmarshal (encode a) Asset.zero = .ok a.sanitized := decode_encode_sanitized a ha
  simp only [ReadAsset, Stub.GetState, hget, lookupWorld_putWorld_same, Bool.false_eq_true,
    if_false, hd]

/-- Reading a key right after a successful write of an encoded valid asset gives the
asset. -/
theorem read_after_put (s : Stub) (dealerID : Int) (a : Asset) (ha : a.Valid)
    (hget : s.getFault (Itoa dealerID) = false) :
    ReadAsset { s with world := putWorld (Itoa dealerID) (encode a) s.world } dealerID
      = .ok a := by
  rw [read_after_put_sanitized s dealerID a ha.1 hget, sanitized_of_valid a ha.2]

theorem initLoop_ok (assets : List Asset) (s : Stub) (h : (initLoop assets s).1 = .ok ()) :
    (initLoop assets s).2 = { s with world := writeAll assets s.world } := by
  induction assets generalizing s with
  | nil => rfl
  | cons a rest ih =>
    simp only [initLoop, Marshal, Stub.PutState] at h ⊢
    by_cases hf : s.putFault (Itoa a.DEALERID) = true
    · simp only [hf, if_true] at h
      exact Except.noConfusion h
    · have hf2 : s.putFault (Itoa a.DEALERID) = false := by simpa using hf
      simp only [hf2, Bool.false_eq_true, if_false] at h ⊢
      rw [ih _ h]
      rfl

set_option maxRecDepth 100000 in
theorem writeAll_seed :
    writeAll seedAssets [] = seedAssets.map (fun a => (Itoa a.DEALERID, encode a)) := by
  decide

set_option maxRecDepth 100000 in
theorem decodeAll_seed :
    decodeAll ((seedAssets.map (fun a => (Itoa a.DEALERID, encode a))).map Prod.snd)
      = .ok seedAssets := by
  rfl

set_option maxRecDepth 100000 in
theorem lookup_seed_1203 :
    lookupWorld (Itoa 1203) (seedAssets.map (fun a => (Itoa a.DEALERID, encode a)))
      = some (encode asset1203) := by
  rfl

theorem scanItems_noFault {α : Type} (fault : Nat → Bool) (h : ∀ i, fault i = false)
    (i : Nat) (xs : List α) : scanItems fault i xs = xs.map Except.ok := by
  induction xs generalizing i with
  | nil => rfl
  | cons x xs ih => simp only [scanItems, h i, ih, List.map_cons, Bool.false_eq_true, if_false]

theorem scanItems_length {α : Type} (fault : Nat → Bool) (i : Nat) (xs : List α) :
    (scanItems fault i xs).length = xs.length := by
  induction xs generalizing i with
  | nil => rfl
  | cons x xs ih => simp [scanItems, ih]

theorem filter_inRange_all (w : List (String × Payload)) :
    w.filter (fun e => inRange "" "" e.1) = w := by
  apply List.filter_eq_self.mpr
  intro e _
  rfl

theorem allAssetsLoop_result (c : Nat) (kvs : List KV) (acc : List Asset) (s : Stub) :
    (allAssetsLoop c (kvs.map Except.ok) acc s).1
      = match decodeAll (kvs.map KV.Value) with
        | .error e => .error e
        | .ok assets => .ok (acc ++ assets) := by
  induction kvs generalizing acc s with
  | nil => simp [allAssetsLoop, decodeAll]
  | cons kv kvs ih =>
    simp only [List.map_cons, allAssetsLoop, decodeAll]
    cases hkv : Unmarshal kv.Value Asset.zero with
    | error e => rfl
    | ok a =>
      simp only [ih]
      cases decodeAll (kvs.map KV.Value) with
      | error e => rfl
      | ok assets => simp

/-- Without a failing scan, `GetAllAssets` returns the decoding of the values of the
world state, in the order of the world state. -/
theorem getAllAssets_result (s : Stub) (hr : s.rangeFault = false)
    (hn : ∀ i, s.nextFault i = false) :
    (GetAllAssets s).1 = decodeAll (s.world.map Prod.snd) := by
  simp only [GetAllAssets, Stub.GetStateByRange, hr, Bool.false_eq_true, if_false,
    filter_inRange_all, scanItems_noFault _ hn]
  rw [allAssetsLoop_result, List.map_map]
  have : (KV.Value ∘ fun e : String × Payload => KV.mk e.1 e.2) = Prod.snd := rfl
  rw [this]
  cases decodeAll (s.world.map Prod.snd) <;> simp

theorem historyLoop_result (c : Nat) (h : List (Option Payload)) (acc : List Asset) (s : Stub) :
    (historyLoop c ((h.map KeyModification.mk).map Except.ok) acc s).1
      = match decodeAll (h.filterMap id) with
        | .error e => .error e
        | .ok assets => .ok (acc ++ assets) := by
  induction h generalizing acc s with
  | nil => simp [historyLoop, decodeAll]
  | cons v vs ih =>
    cases v with
    | none =>
      simp only [List.map_cons, historyLoop, List.filterMap_cons, id_eq]
      exact ih acc _
    | some p =>
      simp only [List.map_cons, historyLoop, List.filterMap_cons, id_eq, decodeAll]
      cases hp : Unmarshal p Asset.zero with
      | error e => rfl
      | ok a =>
        simp only [ih]
        cases decodeAll (vs.filterMap id) with
        | error e => rfl
        | ok assets => simp

/-- Without a failing scan, `GetAssetHistory` returns the decoding of the entries of the
key's history that are no deletion markers, in the order of the history. -/
theorem getAssetHistory_result (s : Stub) (dealerID : Int)
    (hf : s.historyFault (Itoa dealerID) = false) (hn : ∀ i, s.nextFault i = false) :
    (GetAssetHistory s dealerID).1 = decodeAll ((s.history (Itoa dealerID)).filterMap id) := by
  simp only [GetAssetHistory, Stub.GetHistoryForKey, hf, Bool.false_eq_true, if_false,
    scanItems_noFault _ hn]
  rw [historyLoop_result]
  cases decodeAll ((s.history (Itoa dealerID)).filterMap id) <;> simp

theorem filterMap_id_length (h : List (Option Payload)) :
    (h.filterMap id).length = (h.filter Option.isSome).length := by
  induction h with
  | nil => rfl
  | cons v vs ih => cases v <;> simp [List.filterMap_cons, List.filter_cons, ih]

theorem allAssetsLoop_log (c : Nat) (items : List (Except Err KV)) (acc : List Asset)
    (s : Stub) :
    ∃ n, n ≤ items.length ∧
      (allAssetsLoop c items acc s).2.log = s.log ++ List.replicate n (Event.next c) := by
  induction items generalizing acc s with
  | nil => exact ⟨0, Nat.le_refl _, by simp [allAssetsLoop]⟩
  | cons item items ih =>
    cases item with
    | error e => exact ⟨1, by simp, by simp [allAssetsLoop, Stub.noteNext]⟩
    | ok kv =>
      simp only [allAssetsLoop]
      cases hkv : Unmarshal kv.Value Asset.zero with
      | error e => exact ⟨1, by simp, by simp [Stub.noteNext]⟩
      | ok a =>
        obtain ⟨n, hn, hlog⟩ := ih (acc ++ [a]) (s.noteNext c)
        refine ⟨n + 1, by simp only [List.length_cons]; omega, ?_⟩
        rw [hlog]
        simp [Stub.noteNext, List.replicate_succ]

theorem historyLoop_log (c : Nat) (items : List (Except Err KeyModification))
    (acc : List Asset) (s : Stub) :
    ∃ n, n ≤ items.length ∧
      (historyLoop c items acc s).2.log = s.log ++ List.replicate n (Event.next c) := by
  induction items generalizing acc s with
  | nil => exact ⟨0, Nat.le_refl _, by simp [historyLoop]⟩
  | cons item items ih =>
    cases item with
    | error e => exact ⟨1, by simp, by simp [historyLoop, Stub.noteNext]⟩
    | ok km =>
      obtain ⟨v⟩ := km
      cases v with
      | none =>
        simp only [historyLoop]
        obtain ⟨n, hn, hlog⟩ := ih acc (s.noteNext c)
        refine ⟨n + 1, by simp only [List.length_cons]; omega, ?_⟩
        rw [hlog]
        simp [Stub.noteNext, List.replicate_succ]
      | some p =>
        simp only [historyLoop]
        cases hp : Unmarshal p Asset.zero with
        | error e => exact ⟨1, by simp, by simp [Stub.noteNext]⟩
        | ok a =>
          obtain ⟨n, hn, hlog⟩ := ih (acc ++ [a]) (s.noteNext c)
          refine ⟨n + 1, by simp only [List.length_cons]; omega, ?_⟩
          rw [hlog]
          simp [Stub.noteNext, List.replicate_succ]

theorem consistent_put (w : List (String × Payload)) (a : Asset) (ha : a.IntsValid)
    (hw : Consistent w) : Consistent (putWorld (Itoa a.DEALERID) (encode a) w) := by
  intro e he
  rcases mem_putWorld _ _ _ _ he with h | h
  · subst h
    exact ⟨a.sanitized, decode_encode_sanitized a ha, rfl⟩
  · exact hw e h

theorem consistent_putState (s : Stub) (a : Asset) (ha : a.IntsValid)
    (hw : Consistent s.world) :
    Consistent (s.PutState (Itoa a.DEALERID) (encode a)).2.world := by
  unfold Stub.PutState
  split
  · exact hw
  · exact consistent_put s.world a ha hw

theorem consistent_initLoop (assets : List Asset) (hv : ∀ a ∈ assets, a.IntsValid) (s : Stub)
    (hw : Consistent s.world) : Consistent (initLoop assets s).2.world := by
  induction assets generalizing s with
  | nil => exact hw
  | cons a rest ih =>
    have ha := hv a (List.mem_cons_self _ _)
    have hrest : ∀ x ∈ rest, x.IntsValid := fun x hx => hv x (List.mem_cons_of_mem _ hx)
    have hput := consistent_putState s a ha hw
    simp only [initLoop, Marshal]
    cases hp : s.PutState (Itoa a.DEALERID) (encode a) with
    | mk res s1 =>
      rw [hp] at hput
      cases res with
      | error e => exact hput
      | ok u => exact ih hrest s1 hput

theorem consistent_create (s : Stub) (dealerID : Int) (msisdn mpin : GoString)
    (balance transAmount : Int) (status transType remarks : GoString)
    (hd : IsGoInt dealerID) (hb : IsGoInt balance) (ht : IsGoInt transAmount)
    (hw : Consistent s.world) :
    Consistent
      (CreateAsset s dealerID msisdn mpin balance transAmount status transType
        remarks).2.world := by
  simp only [CreateAsset, Marshal]
  exact consistent_putState s
    ⟨dealerID, msisdn, mpin, balance, status, transAmount, transType, remarks⟩
    ⟨hd, hb, ht⟩ hw

theorem consistent_update (s : Stub) (dealerID : Int) (msisdn mpin : GoString)
    (balance transAmount : Int) (status transType remarks : GoString)
    (hb : IsGoInt balance) (ht : IsGoInt transAmount) (hw : Consistent s.world) :
    Consistent
      (UpdateAsset s dealerID msisdn mpin balance transAmount status transType
        remarks).2.world := by
  simp only [UpdateAsset, Marshal]
  cases hget : s.GetState (Itoa dealerID) with
  | error e => exact hw
  | ok r =>
    cases r with
    | none => exact hw
    | some b =>
      simp only
      cases hold : Unmarshal b Asset.zero with
      | error e => exact hw
      | ok old =>
        simp only
        have hmem := lookupWorld_mem _ _ _ (getState_ok_fault s _ _ hget).2
        obtain ⟨a, ha, hkey⟩ := hw _ hmem
        rw [hold] at ha
        have hao : old = a := Except.ok.inj ha
        subst hao
        have hvalid : old.Valid := decode_valid b old hold
        have hnew := consistent_putState s
          ⟨old.DEALERID, msisdn, mpin, balance, status, transAmount, transType, remarks⟩
          ⟨hvalid.1.1, hb, ht⟩ hw
        simp only at hkey hnew
        rw [hkey] at hnew
        exact hnew

theorem reachable_consistent (s : Stub) (h : Reachable s) : Consistent s.world := by
  induction h with
  | empty s hs =>
    rw [hs]
    intro e he
    exact absurd he (List.not_mem_nil _)
  | seed s _ ih => exact consistent_initLoop seedAssets (by decide) s ih
  | create s dealerID msisdn mpin balance transAmount status transType remarks hd hb ht _ ih =>
    exact consistent_create s dealerID msisdn mpin balance transAmount status transType remarks
      hd hb ht ih
  | update s dealerID msisdn mpin balance transAmount status transType remarks hb ht _ ih =>
    exact consistent_update s dealerID msisdn mpin balance transAmount status transType remarks
      hb ht ih
  | env s t _ hst ih =>
    rw [hst]
    exact ih

theorem read_consistent (s : Stub) (dealerID : Int) (a : Asset) (hw : Consistent s.world)
    (h : ReadAsset s dealerID = .ok a) : a.DEALERID = dealerID := by
  simp only [ReadAsset] at h
  cases hget : s.GetState (Itoa dealerID) with
  | error e => rw [hget] at h; exact Except.noConfusion h
  | ok r =>
    rw [hget] at h
    cases r with
    | none => exact Except.noConfusion h
    | some b =>
      simp only at h
      cases hb : Unmarshal b Asset.zero with
      | error e => rw [hb] at h; exact Except.noConfusion h
      | ok a2 =>
        rw [hb] at h
        have ha : a2 = a := Except.ok.inj h
        subst ha
        have hmem := lookupWorld_mem _ _ _ (getState_ok_fault s _ _ hget).2
        obtain ⟨a3, ha3, hkey⟩ := hw _ hmem
        rw [hb] at ha3
        have : a2 = a3 := Except.ok.inj ha3
        subst this
        exact Itoa_injective _ _ hkey

/-! ## The claims -/

/-- C1 (round trip). For every valid asset, that is every asset whose integer fields are
values of Go's `int` and whose string fields are well-formed UTF-8, `json.Marshal` succeeds
with the payload `encode a`, and `json.Unmarshal` of that payload into a fresh asset
succeeds and gives back an asset equal to `a`, hence equal in all eight fields. -/
theorem roundtrip_marshal_unmarshal (a : Asset) (h : a.Valid) :
    Marshal a = .ok (encode a) ∧ Unmarshal (encode a) Asset.zero = .ok a :=
  ⟨rfl, decode_encode a h⟩

set_option maxRecDepth 100000 in
theorem roundtrip_marshal_unmarshal_witness :
    asset1203.Valid ∧
      asset1203.MSISDN = [43, 57, 49, 32, 52, 53, 54, 55, 56, 55] ∧
      Marshal asset1203 = .ok (encode asset1203) ∧
      Unmarshal (encode asset1203) Asset.zero = .ok asset1203 :=
  ⟨by decide, rfl, roundtrip_marshal_unmarshal asset1203 (by decide)⟩

/-- C2 (field order). The payload `json.Marshal` produces for an asset holds the field
tags in the order of the struct declaration, DEALERID, MSISDN, ID, BALANCE, Status,
TRANSAM, TRANS, REMARKS, which is not the order BALANCE, DEALERID, ID, MSISDN, REMARKS,
Status, TRANSAM, TRANS; for the third seed asset the payload is the text shown. -/
theorem encode_field_order (a : Asset) :
    memberKeys (encode a)
        = some ["DEALERID", "MSISDN", "ID", "BALANCE", "Status", "TRANSAM", "TRANS", "REMARKS"] ∧
      memberKeys (encode a)
        ≠ some ["BALANCE", "DEALERID", "ID", "MSISDN", "REMARKS", "Status", "TRANSAM", "TRANS"] ∧
      encode asset1203
        = String.data ("\x7b\"DEALERID\":1203,\"MSISDN\":\"+91 456787\",\"ID\":\"0120\"," ++
            "\"BALANCE\":300,\"Status\":\"SUCCESS\",\"TRANSAM\":500,\"TRANS\":\"ONLINE\"," ++
            "\"REMARKS\":\"NO\"\x7d") := by
  have h : memberKeys (encode a)
      = some ["DEALERID", "MSISDN", "ID", "BALANCE", "Status", "TRANSAM", "TRANS", "REMARKS"] := by
    simp only [memberKeys, parseJSON_encode, encodedValue, List.map_cons, List.map_nil]
  refine ⟨h, ?_, by decide⟩
  rw [h]
  decide

/-- C4 (not found on an absent key). When the stub answers that the key of `dealerID`
holds nothing, `ReadAsset` fails with `asset dealerID does not exist` and returns no
asset, and `UpdateAsset` fails with the same error for every set of new fields and leaves
the stub, world state included, exactly as it was. -/
theorem absent_key_not_found (s : Stub) (dealerID : Int)
    (h : s.GetState (Itoa dealerID) = .ok none) :
    ReadAsset s dealerID = .error (Err.notExist dealerID) ∧
      ∀ (msisdn mpin : GoString) (balance transAmount : Int)
          (status transType remarks : GoString),
        UpdateAsset s dealerID msisdn mpin balance transAmount status transType remarks
          = (.error (Err.notExist dealerID), s) := by
  refine ⟨?_, ?_⟩
  · simp only [ReadAsset, h]
  · intro msisdn mpin balance transAmount status transType remarks
    simp only [UpdateAsset, h]

theorem absent_key_not_found_witness :
    Stub.empty.GetState (Itoa 1203) = .ok none ∧
      ReadAsset Stub.empty 1203 = .error (Err.notExist 1203) ∧
      ∀ (msisdn mpin : GoString) (balance transAmount : Int)
          (status transType remarks : GoString),
        UpdateAsset Stub.empty 1203 msisdn mpin balance transAmount status transType remarks
          = (.error (Err.notExist 1203), Stub.empty) :=
  ⟨rfl, absent_key_not_found Stub.empty 1203 rfl⟩

/-- C5 (create overwrites unconditionally). Whatever the key of `r.DEALERID` holds, when
`PutState` does not fail on that key, `CreateAsset` with the fields of the valid record
`r` (integers values of Go's `int`, strings well-formed UTF-8) succeeds; afterwards
`ReadAsset` of `r.DEALERID` (its `GetState` not failing) returns exactly `r`, and `GetState`
of every other key answers what it answered before. -/
theorem create_overwrites (s : Stub) (r : Asset) (hr : r.Valid)
    (hput : s.putFault (Itoa r.DEALERID) = false)
    (hget : s.getFault (Itoa r.DEALERID) = false) :
    (CreateAsset s r.DEALERID r.MSISDN r.MPIN r.BALANCE r.TRANSAMOUNT r.STATUS r.TRANSTYPE
        r.REMARKS).1 = .ok () ∧
      ReadAsset
        (CreateAsset s r.DEALERID r.MSISDN r.MPIN r.BALANCE r.TRANSAMOUNT r.STATUS r.TRANSTYPE
          r.REMARKS).2 r.DEALERID = .ok r ∧
      ∀ k : String, k ≠ Itoa r.DEALERID →
        (CreateAsset s r.DEALERID r.MSISDN r.MPIN r.BALANCE r.TRANSAMOUNT r.STATUS r.TRANSTYPE
          r.REMARKS).2.GetState k = s.GetState k := by
  have hc : CreateAsset s r.DEALERID r.MSISDN r.MPIN r.BALANCE r.TRANSAMOUNT r.STATUS
      r.TRANSTYPE r.REMARKS
      = (.ok (), { s with world := putWorld (Itoa r.DEALERID) (encode r) s.world }) := by
    simp only [CreateAsset, Marshal, Stub.PutState, hput]
    rfl
  rw [hc]
  refine ⟨rfl, read_after_put s r.DEALERID r hr hget, ?_⟩
  intro k hk
  simp only [Stub.GetState, lookupWorld_putWorld_other _ _ _ _ hk]

set_option maxRecDepth 100000 in
theorem create_overwrites_witness :
    overwriteRecord.Valid ∧
      seededStub.putFault (Itoa 1203) = false ∧ seededStub.getFault (Itoa 1203) = false ∧
      seededStub.GetState (Itoa 1203) = .ok (some (encode asset1203)) ∧
      (CreateAsset seededStub 1203 (goStr "+91 000111") (goStr "4321") 7 (-9)
        (goStr "FAILURE") (goStr "OFFLINE") (goStr "YES")).1 = .ok () ∧
      ReadAsset
          (CreateAsset seededStub 1203 (goStr "+91 000111") (goStr "4321") 7 (-9)
            (goStr "FAILURE") (goStr "OFFLINE") (goStr "YES")).2
          1203
        = .ok overwriteRecord ∧
      ∀ k : String, k ≠ Itoa 1203 →
        (CreateAsset seededStub 1203 (goStr "+91 000111") (goStr "4321") 7 (-9)
          (goStr "FAILURE") (goStr "OFFLINE") (goStr "YES")).2.GetState k
          = seededStub.GetState k :=
  ⟨by decide, rfl, rfl, rfl, create_overwrites seededStub overwriteRecord (by decide) rfl rfl⟩

/-- C6 (seed then list). On a ledger whose world state is empty, after `InitLedger`
succeeds, `GetAllAssets` (its scan not failing) succeeds and yields exactly the six seed
assets, field for field, DEALERIDs 1201 to 1206, in the lexicographic order of their
decimal keys; and `ReadAsset` of 1203 (its `GetState` not failing) returns
MSISDN `+91 456787`, PIN `0120`, balance 300, status `SUCCESS`, amount 500, type `ONLINE`,
remarks `NO`. -/
theorem seed_then_list (s : Stub) (hw : s.world = []) (hseed : (InitLedger s).1 = .ok ())
    (hr : s.rangeFault = false) (hn : ∀ i, s.nextFault i = false)
    (hg : s.getFault (Itoa 1203) = false) :
    (GetAllAssets (InitLedger s).2).1 = .ok seedAssets ∧
      seedAssets.length = 6 ∧
      seedAssets.map Asset.DEALERID = [1201, 1202, 1203, 1204, 1205, 1206] ∧
      List.Pairwise (fun a b => keyLt (Itoa a.DEALERID).data (Itoa b.DEALERID).data = true)
        seedAssets ∧
      ReadAsset (InitLedger s).2 1203
        = .ok { DEALERID := 1203, MSISDN := goStr "+91 456787", MPIN := goStr "0120",
                BALANCE := 300, STATUS := goStr "SUCCESS", TRANSAMOUNT := 500,
                TRANSTYPE := goStr "ONLINE", REMARKS := goStr "NO" } := by
  have hs : (InitLedger s).2
      = { s with world := seedAssets.map (fun a => (Itoa a.DEALERID, encode a)) } := by
    unfold InitLedger at hseed ⊢
    rw [initLoop_ok seedAssets s hseed, hw, writeAll_seed]
  rw [hs]
  refine ⟨?_, rfl, rfl, by decide, ?_⟩
  · rw [getAllAssets_result
      { s with world := seedAssets.map (fun a => (Itoa a.DEALERID, encode a)) } hr hn]
    exact decodeAll_seed
  · have hd : Unmarshal (encode asset1203) Asset.zero = .ok asset1203 :=
      decode_encode asset1203 (by decide)
    simp only [ReadAsset, Stub.GetState, hg, Bool.false_eq_true, if_false, lookup_seed_1203, hd]
    rfl

set_option maxRecDepth 100000 in
theorem seed_then_list_witness :
    Stub.empty.world = [] ∧ (InitLedger Stub.empty).1 = .ok () ∧
      Stub.empty.rangeFault = false ∧ (∀ i, Stub.empty.nextFault i = false) ∧
      Stub.empty.getFault (Itoa 1203) = false ∧
      (GetAllAssets (InitLedger Stub.empty).2).1 = .ok seedAssets ∧
      seedAssets.length = 6 ∧
      seedAssets.map Asset.DEALERID = [1201, 1202, 1203, 1204, 1205, 1206] ∧
      List.Pairwise (fun a b => keyLt (Itoa a.DEALERID).data (Itoa b.DEALERID).data = true)
        seedAssets ∧
      ReadAsset (InitLedger Stub.empty).2 1203
        = .ok { DEALERID := 1203, MSISDN := goStr "+91 456787", MPIN := goStr "0120",
                BALANCE := 300, STATUS := goStr "SUCCESS", TRANSAMOUNT := 500,
                TRANSTYPE := goStr "ONLINE", REMARKS := goStr "NO" } :=
  ⟨rfl, rfl, rfl, fun _ => rfl, rfl,
    seed_then_list Stub.empty rfl rfl rfl (fun _ => rfl) rfl⟩

/-- C7 (history skips tombstones and keeps order). When the history scan itself does not
fail and every entry of the key's history that is no deletion marker decodes,
`GetAssetHistory` succeeds and returns exactly the decodings of the entries that are no
deletion markers, in the order of the history; deletion markers give no element, so the
result is as long as the number of entries that are no deletion markers. -/
theorem history_skips_tombstones (s : Stub) (dealerID : Int)
    (hf : s.historyFault (Itoa dealerID) = false) (hn : ∀ i, s.nextFault i = false)
    (hdec : ∀ p, some p ∈ s.history (Itoa dealerID) → ∃ a, Unmarshal p Asset.zero = .ok a) :
    ∃ assets, (GetAssetHistory s dealerID).1 = .ok assets ∧
      List.Forall₂ (fun p a => Unmarshal p Asset.zero = .ok a)
        ((s.history (Itoa dealerID)).filterMap id) assets ∧
      assets.length = ((s.history (Itoa dealerID)).filter Option.isSome).length := by
  rw [getAssetHistory_result s dealerID hf hn]
  obtain ⟨assets, hok, hall⟩ := decodeAll_ok ((s.history (Itoa dealerID)).filterMap id) (by
    intro p hp
    apply hdec p
    simpa using hp)
  exact ⟨assets, hok, hall, by rw [← hall.length_eq, filterMap_id_length]⟩

set_option maxRecDepth 100000 in
theorem history_skips_tombstones_witness :
    historyStub.historyFault (Itoa 1203) = false ∧ (∀ i, historyStub.nextFault i = false) ∧
      historyStub.history (Itoa 1203)
        = [some (encode asset1203Updated), none, some (encode asset1203)] ∧
      (GetAssetHistory historyStub 1203).1 = .ok [asset1203Updated, asset1203] ∧
      ∃ assets, (GetAssetHistory historyStub 1203).1 = .ok assets ∧
        List.Forall₂ (fun p a => Unmarshal p Asset.zero = .ok a)
          ((historyStub.history (Itoa 1203)).filterMap id) assets ∧
        assets.length = ((historyStub.history (Itoa 1203)).filter Option.isSome).length :=
  ⟨rfl, fun _ => rfl, rfl, rfl,
    history_skips_tombstones historyStub 1203 rfl (fun _ => rfl)
      (fun p hp => decodes_ok p
        ((by decide : ∀ v ∈ historyStub.history (Itoa 1203),
            ∀ q, v = some q → decodes q = true) (some p) hp p rfl))⟩

/-- C8 (list is all-or-nothing). When the range scan itself does not fail: if some entry
of the world state holds a payload that does not decode, `GetAllAssets` fails with the
decode error and returns no list at all; if every entry decodes, `GetAllAssets` succeeds
with exactly one asset per entry, the decoding of that entry, in the order of the scan. -/
theorem list_all_or_nothing (s : Stub) (hr : s.rangeFault = false)
    (hn : ∀ i, s.nextFault i = false) :
    ((∃ e ∈ s.world, ∀ a, Unmarshal e.2 Asset.zero ≠ .ok a) →
        (GetAllAssets s).1 = .error Err.decode) ∧
      ((∀ e ∈ s.world, ∃ a, Unmarshal e.2 Asset.zero = .ok a) →
        ∃ assets, (GetAllAssets s).1 = .ok assets ∧ assets.length = s.world.length ∧
          List.Forall₂ (fun e a => Unmarshal e.2 Asset.zero = .ok a) s.world assets) := by
  rw [getAllAssets_result s hr hn]
  refine ⟨?_, ?_⟩
  · rintro ⟨e, he, hbad⟩
    exact decodeAll_error _ ⟨e.2, List.mem_map_of_mem _ he, hbad⟩
  · intro hall
    obtain ⟨assets, hok, hf⟩ := decodeAll_ok (s.world.map Prod.snd) (by
      intro p hp
      obtain ⟨e, he, rfl⟩ := List.mem_map.mp hp
      exact hall e he)
    have hf2 : List.Forall₂ (fun e a => Unmarshal e.2 Asset.zero = .ok a) s.world assets :=
      List.forall₂_map_left_iff.mp hf
    exact ⟨assets, hok, hf2.length_eq.symm, hf2⟩

set_option maxRecDepth 100000 in
theorem list_all_or_nothing_witness :
    brokenStub.rangeFault = false ∧ (∀ i, brokenStub.nextFault i = false) ∧
      (GetAllAssets brokenStub).1 = .error Err.decode ∧
      ∃ assets, (GetAllAssets seededStub).1 = .ok assets ∧
        assets.length = seededStub.world.length ∧
        List.Forall₂ (fun e a => Unmarshal e.2 Asset.zero = .ok a) seededStub.world assets :=
  ⟨rfl, fun _ => rfl,
    (list_all_or_nothing brokenStub rfl (fun _ => rfl)).1
      ⟨("1202", String.data "oops"), by decide, fun a h => Except.noConfusion h⟩,
    (list_all_or_nothing seededStub rfl (fun _ => rfl)).2
      (fun e he => decodes_ok e.2
        ((by decide : ∀ x ∈ seededStub.world, decodes x.2 = true) e he))⟩

/-- C9 (cursor release on every exit path). For `GetAllAssets` and for `GetAssetHistory`,
on every ledger and hence whatever the operation returns (the list, the error of a failed
`Next`, a decode error): when the stub hands out a cursor, the events the operation adds
to the log are the acquisition of that cursor, then calls of `Next` on it, then one
`Close` of it as the last event before the operation returns; when the stub fails to
hand out a cursor, the operation adds no event, so no `Close` is attempted. -/
theorem cursor_closed_on_every_path (s : Stub) (dealerID : Int) :
    (s.rangeFault = true → (GetAllAssets s).2.log = s.log) ∧
      (s.rangeFault = false → ∃ n, n ≤ s.world.length ∧
        (GetAllAssets s).2.log
          = s.log ++ (Event.acquire s.cursors :: List.replicate n (Event.next s.cursors))
              ++ [Event.close s.cursors]) ∧
      (s.historyFault (Itoa dealerID) = true → (GetAssetHistory s dealerID).2.log = s.log) ∧
      (s.historyFault (Itoa dealerID) = false → ∃ n, n ≤ (s.history (Itoa dealerID)).length ∧
        (GetAssetHistory s dealerID).2.log
          = s.log ++ (Event.acquire s.cursors :: List.replicate n (Event.next s.cursors))
              ++ [Event.close s.cursors]) := by
  obtain ⟨world, history, getFault, putFault, rangeFault, historyFault, nextFault, cursors,
    log⟩ := s
  refine ⟨?_, ?_, ?_, ?_⟩
  · intro h
    simp only at h
    subst h
    rfl
  · intro h
    simp only at h
    subst h
    obtain ⟨n, hn, hlog⟩ := allAssetsLoop_log cursors
      (scanItems nextFault 0
        ((world.filter (fun e => inRange "" "" e.1)).map (fun e => KV.mk e.1 e.2))) []
      ⟨world, history, getFault, putFault, false, historyFault, nextFault, cursors + 1,
        log ++ [Event.acquire cursors]⟩
    refine ⟨n, ?_, ?_⟩
    · rw [scanItems_length, List.length_map, filter_inRange_all] at hn
      exact hn
    · simp only [GetAllAssets, Stub.GetStateByRange, Bool.false_eq_true, if_false, Stub.Close,
        hlog]
      simp
  · intro h
    simp only at h
    simp only [GetAssetHistory, Stub.GetHistoryForKey, h, if_true]
  · intro h
    obtain ⟨n, hn, hlog⟩ := historyLoop_log cursors
      (scanItems nextFault 0 ((history (Itoa dealerID)).map KeyModification.mk)) []
      ⟨world, history, getFault, putFault, rangeFault, historyFault, nextFault, cursors + 1,
        log ++ [Event.acquire cursors]⟩
    refine ⟨n, ?_, ?_⟩
    · rw [scanItems_length, List.length_map] at hn
      exact hn
    · simp only at h
      simp only [GetAssetHistory, Stub.GetHistoryForKey, h, Bool.false_eq_true, if_false,
        Stub.Close, hlog]
      simp

set_option maxRecDepth 100000 in
theorem cursor_closed_on_every_path_witness :
    ((GetAllAssets seededStub).1 = .ok seedAssets ∧
      (GetAllAssets seededStub).2.log
        = Event.acquire 0 :: (List.replicate 6 (Event.next 0) ++ [Event.close 0])) ∧
    ((GetAllAssets nextFailStub).1 = .error Err.ledger ∧
      (GetAllAssets nextFailStub).2.log
        = [Event.acquire 0, Event.next 0, Event.next 0, Event.close 0]) ∧
    ((GetAllAssets brokenStub).1 = .error Err.decode ∧
      (GetAllAssets brokenStub).2.log
        = [Event.acquire 0, Event.next 0, Event.next 0, Event.close 0]) ∧
    ((GetAllAssets noCursorStub).1 = .error Err.ledger ∧
      (GetAllAssets noCursorStub).2.log = []) ∧
    ((GetAssetHistory historyStub 1203).2.log
        = Event.acquire 0 :: (List.replicate 3 (Event.next 0) ++ [Event.close 0])) ∧
    ((GetAssetHistory noCursorStub 1203).1 = .error Err.historyFailed ∧
      (GetAssetHistory noCursorStub 1203).2.log = []) ∧
    (∃ n, n ≤ brokenStub.world.length ∧
      (GetAllAssets brokenStub).2.log
        = brokenStub.log
            ++ (Event.acquire brokenStub.cursors
                  :: List.replicate n (Event.next brokenStub.cursors))
            ++ [Event.close brokenStub.cursors]) :=
  ⟨⟨rfl, rfl⟩, ⟨rfl, rfl⟩, ⟨rfl, rfl⟩, ⟨rfl, rfl⟩, rfl, ⟨rfl, rfl⟩,
    (cursor_closed_on_every_path brokenStub 1203).2.1 rfl⟩

/-- C10 (key and DEALERID agree). Call a world state consistent when every entry holds a
payload that decodes to an asset whose DEALERID, in unpadded decimal, is the entry's key.
The empty world state is consistent; `InitLedger`, `CreateAsset` and `UpdateAsset` (called
with values of Go's `int`) leave a consistent world state consistent, whether they succeed
or fail; hence on every ledger reachable from an empty one through these operations a
successful `ReadAsset` of `dealerID` returns an asset whose DEALERID is `dealerID`. -/
theorem key_dealerID_consistency :
    Consistent [] ∧
      (∀ s : Stub, Consistent s.world → Consistent (InitLedger s).2.world) ∧
      (∀ (s : Stub) (dealerID : Int) (msisdn mpin : GoString) (balance transAmount : Int)
          (status transType remarks : GoString),
        IsGoInt dealerID → IsGoInt balance → IsGoInt transAmount → Consistent s.world →
        Consistent
          (CreateAsset s dealerID msisdn mpin balance transAmount status transType
            remarks).2.world) ∧
      (∀ (s : Stub) (dealerID : Int) (msisdn mpin : GoString) (balance transAmount : Int)
          (status transType remarks : GoString),
        IsGoInt balance → IsGoInt transAmount → Consistent s.world →
        Consistent
          (UpdateAsset s dealerID msisdn mpin balance transAmount status transType
            remarks).2.world) ∧
      (∀ (s : Stub) (dealerID : Int) (a : Asset),
        Reachable s → ReadAsset s dealerID = .ok a → a.DEALERID = dealerID) :=
  ⟨fun e he => absurd he (List.not_mem_nil _),
    fun s hw => consistent_initLoop seedAssets (by decide) s hw,
    consistent_create, consistent_update,
    fun s dealerID a hr h => read_consistent s dealerID a (reachable_consistent s hr) h⟩

set_option maxRecDepth 100000 in
theorem key_dealerID_consistency_witness :
    Consistent seededStub.world ∧
      Consistent
        (UpdateAsset seededStub 1203 (goStr "+91 000111") (goStr "0120") 300 500
          (goStr "SUCCESS") (goStr "ONLINE") (goStr "NO")).2.world ∧
      ReadAsset seededStub 1203 = .ok asset1203 ∧ asset1203.DEALERID = 1203 :=
  ⟨key_dealerID_consistency.2.1 Stub.empty key_dealerID_consistency.1,
    key_dealerID_consistency.2.2.2.1 seededStub 1203 (goStr "+91 000111") (goStr "0120") 300
      500 (goStr "SUCCESS") (goStr "ONLINE") (goStr "NO") (by decide) (by decide)
      (key_dealerID_consistency.2.1 Stub.empty key_dealerID_consistency.1),
    rfl,
    key_dealerID_consistency.2.2.2.2 seededStub 1203 asset1203
      (Reachable.seed Stub.empty (Reachable.empty Stub.empty rfl)) rfl⟩

end Chaincode
